import Mathlib

/-!
# gostrings: a shallow embedding of `gostrings.go`

The program scans every section of an ELF or Mach-O binary for word pairs
`(pointer, length)` that look like Go string headers, resolves the pointer
against the sections of the binary and prints the printable strings found,
sorted and without duplicates.

Conventions of the embedding.

* A byte is a `Fin 256`; a Go `[]byte` and a Go `string` are both `List Byte`.
* `uint64` and `uintptr` values are natural numbers below `2 ^ 64`; every
  `uintptr` operation that can wrap is written with an explicit `% 2 ^ 64`
  (the embedding is that of a 64-bit build, where `uintptr` is 64 bits wide).
* A run-time panic and a returned `error` are values of `Failure`; functions
  that can fail return `Except Failure _`.
* A Go `map` is an association list without repeated keys; `range` over the map
  visits the entries in the order of that list. Go leaves the order open: the
  functions whose names end in `In` take the orders as arguments, and
  `mainIn_eq` proves that the orders do not show in the outcome.
-/

namespace GoStrings

/-! ## Basic types -/

/-- One byte. -/
abbrev Byte := Fin 256

/-- A Go string: an immutable sequence of bytes. -/
abbrev GoString := List Byte

/-- A value of type `uintptr` (64 bits). -/
abbrev Uintptr := Fin (2 ^ 64)

/-- The ways a run of the program stops without a result. -/
inductive Failure where
  /-- The call `section.Data()` returned an error (returned by `parseElf`, `main` panics on it). -/
  | dataError
  /-- The panic `"unsupported CPU"` of `ptrSizeForCpuElf` and `ptrSizeForCpuMacho`. -/
  | unsupportedCPU
  /-- The panic `"Unknown binary format"` of `main`. -/
  | unknownFormat
  /-- A run-time panic: index or slice bounds out of range. -/
  | outOfRange
  /-- The loop budget of the embedding is used up (never happens, see `findStringsInSection_fuel`). -/
  | outOfFuel
  deriving DecidableEq, Repr

/-- Equality of two outcomes can be computed. -/
instance exceptDecEq {ε α : Type} [DecidableEq ε] [DecidableEq α] : DecidableEq (Except ε α)
  | .ok a, .ok b =>
    if h : a = b then isTrue (congrArg Except.ok h)
    else isFalse (fun h' => h (Except.ok.inj h'))
  | .error a, .error b =>
    if h : a = b then isTrue (congrArg Except.error h)
    else isFalse (fun h' => h (Except.error.inj h'))
  | .ok _, .error _ => isFalse (fun h => Except.noConfusion h)
  | .error _, .ok _ => isFalse (fun h => Except.noConfusion h)

/-- The slice expression `s[lo:hi]`; it panics unless `lo ≤ hi ≤ len(s)`. -/
def slice (s : List Byte) (lo hi : Nat) : Except Failure (List Byte) :=
  if lo ≤ hi ∧ hi ≤ s.length then .ok ((s.drop lo).take (hi - lo)) else .error .outOfRange

/-- Addition of two `uintptr` values (wraps modulo `2 ^ 64`). -/
def uadd (a b : Nat) : Nat := (a + b) % 2 ^ 64

/-- Subtraction of two `uintptr` values (wraps modulo `2 ^ 64`). -/
def usub (a b : Nat) : Nat := (a + 2 ^ 64 - b) % 2 ^ 64

/-- The conversion `uintptr(x)` of an integer value. -/
def uintptr (x : Nat) : Nat := x % 2 ^ 64

/-! ## `encoding/binary` -/

/-- The two implementations of `binary.ByteOrder` a parsed file can carry. -/
inductive ByteOrder where
  | LittleEndian
  | BigEndian
  deriving DecidableEq, Repr

/-- The method `ByteOrder.Uint64(b)`: the first eight bytes of `b` as an unsigned 64-bit
number; like the library (`_ = b[7]`), it panics when `b` has fewer than eight bytes. -/
def ByteOrder.Uint64 : ByteOrder → List Byte → Except Failure Nat
  | .LittleEndian, b0 :: b1 :: b2 :: b3 :: b4 :: b5 :: b6 :: b7 :: _ =>
    .ok (b0.val + b1.val * 2 ^ 8 + b2.val * 2 ^ 16 + b3.val * 2 ^ 24 + b4.val * 2 ^ 32
      + b5.val * 2 ^ 40 + b6.val * 2 ^ 48 + b7.val * 2 ^ 56)
  | .BigEndian, b0 :: b1 :: b2 :: b3 :: b4 :: b5 :: b6 :: b7 :: _ =>
    .ok (b7.val + b6.val * 2 ^ 8 + b5.val * 2 ^ 16 + b4.val * 2 ^ 24 + b3.val * 2 ^ 32
      + b2.val * 2 ^ 40 + b1.val * 2 ^ 48 + b0.val * 2 ^ 56)
  | _, _ => .error .outOfRange

/-! ## Go maps -/

/-- The assignment `m[k] = v` on a map held as an association list: an entry with key `k`
is overwritten in place, a new key is added. -/
def mapSet {κ ν : Type} [DecidableEq κ] : List (κ × ν) → κ → ν → List (κ × ν)
  | [], k, v => [(k, v)]
  | (k', v') :: rest, k, v =>
    if k' = k then (k, v) :: rest else (k', v') :: mapSet rest k v

/-! ## The scanner -/

/-- The constant `MIN_LEN`. -/
def MIN_LEN : Nat := 4

/-- The constant `MAX_LEN`. -/
def MAX_LEN : Nat := 2048

/-- The function `isPrintable`: no byte below 32 or above 126. -/
def isPrintable : List Byte → Bool
  | [] => true
  | b :: rest => if b.val < 32 ∨ b.val > 126 then false else isPrintable rest

/-- The inner loop of `findStringsInSection`,
`for rodataBaseAddr, rodataData := range dataSections`, run for one candidate
`(ptr, length)`; `result` is the slice of strings found so far. -/
def rangeDataSections (ptr length : Nat) :
    List (Uintptr × List Byte) → List GoString → Except Failure (List GoString)
  | [], result => .ok result
  | (rodataBaseAddr, rodataData) :: rest, result =>
    if uintptr ptr ≥ rodataBaseAddr.val ∧
        uadd (uintptr ptr) (uintptr length)
          ≤ uadd rodataBaseAddr.val (uintptr rodataData.length) then
      let offset := usub (uintptr ptr) rodataBaseAddr.val
      if uadd offset (uintptr length) ≤ uintptr rodataData.length then
        match slice rodataData offset (uadd offset (uintptr length)) with
        | .error e => .error e
        | .ok strData =>
          if isPrintable strData then
            rangeDataSections ptr length rest (result ++ [strData])
          else
            rangeDataSections ptr length rest result
      else
        rangeDataSections ptr length rest result
    else
      rangeDataSections ptr length rest result

/-- The outer loop of `findStringsInSection`,
`for i := 0; i < len(sectionData)-2*ptrSize; i += ptrSize`, from the offset `i` on.
The first argument bounds the number of iterations. -/
def scanFrom (ptrSize : Nat) (byteOrder : ByteOrder) (sectionData : List Byte)
    (dataSections : List (Uintptr × List Byte)) :
    Nat → Nat → List GoString → Except Failure (List GoString)
  | fuel, i, result =>
    if (i : Int) < (sectionData.length : Int) - 2 * (ptrSize : Int) then
      match fuel with
      | 0 => .error .outOfFuel
      | fuel + 1 =>
        match slice sectionData i (i + ptrSize) with
        | .error e => .error e
        | .ok ptrBytes =>
        match byteOrder.Uint64 ptrBytes with
        | .error e => .error e
        | .ok ptr =>
        match slice sectionData (i + ptrSize) (i + 2 * ptrSize) with
        | .error e => .error e
        | .ok lengthBytes =>
        match byteOrder.Uint64 lengthBytes with
        | .error e => .error e
        | .ok length =>
          if length < MIN_LEN ∨ length > MAX_LEN ∨ ptr > 0xffffffffffff0000 then
            scanFrom ptrSize byteOrder sectionData dataSections fuel (i + ptrSize) result
          else
            match rangeDataSections ptr length dataSections result with
            | .error e => .error e
            | .ok result' =>
              scanFrom ptrSize byteOrder sectionData dataSections fuel (i + ptrSize) result'
    else
      .ok result

/-- The function `findStringsInSection`: finds pointers in a section and extracts strings from
the collected sections. -/
def findStringsInSection (ptrSize : Nat) (byteOrder : ByteOrder) (sectionData : List Byte)
    (dataSections : List (Uintptr × List Byte)) : Except Failure (List GoString) :=
  scanFrom ptrSize byteOrder sectionData dataSections sectionData.length 0 []

/-! ## Pointer width -/

/-- The value `elf.ELFCLASS32`. -/
def ELFCLASS32 : Nat := 1

/-- The value `elf.ELFCLASS64`. -/
def ELFCLASS64 : Nat := 2

/-- The function `ptrSizeForCpuElf`. -/
def ptrSizeForCpuElf (cls : Nat) : Except Failure Nat :=
  if cls = ELFCLASS32 then .ok 4
  else if cls = ELFCLASS64 then .ok 8
  else .error .unsupportedCPU

/-- The value `macho.Cpu386`. -/
def Cpu386 : Nat := 7

/-- The value `macho.CpuAmd64`, `Cpu386 | cpuArch64`. -/
def CpuAmd64 : Nat := 7 + 0x01000000

/-- The value `macho.CpuArm`. -/
def CpuArm : Nat := 12

/-- The value `macho.CpuArm64`, `CpuArm | cpuArch64`. -/
def CpuArm64 : Nat := 12 + 0x01000000

/-- The function `ptrSizeForCpuMacho`. -/
def ptrSizeForCpuMacho (cpu : Nat) : Except Failure Nat :=
  if cpu = Cpu386 then .ok 4
  else if cpu = CpuAmd64 then .ok 8
  else if cpu = CpuArm then .ok 4
  else if cpu = CpuArm64 then .ok 8
  else .error .unsupportedCPU

/-! ## The two front ends -/

/-- The value `elf.SHT_NOBITS`. -/
def SHT_NOBITS : Nat := 8

/-- What `parseElf` reads of an `elf.Section`: its type, its address and the outcome of
`section.Data()`. -/
structure ElfSection where
  /-- The field `Type`. -/
  SType : Nat
  /-- The field `Addr`. -/
  Addr : Uintptr
  /-- The outcome of the call `Data()`. -/
  Data : Except Failure (List Byte)

/-- What `parseElf` reads of an `elf.File`. -/
structure ElfFile where
  /-- The field `Class`. -/
  Class : Nat
  /-- The field `ByteOrder`. -/
  Order : ByteOrder
  /-- The field `Sections`. -/
  Sections : List ElfSection

/-- What `parseMacho` reads of a `macho.Section`. -/
structure MachoSection where
  /-- The field `Addr`. -/
  Addr : Uintptr
  /-- The outcome of the call `Data()`. -/
  Data : Except Failure (List Byte)

/-- What `parseMacho` reads of a `macho.File`. -/
structure MachoFile where
  /-- The field `Cpu`. -/
  Cpu : Nat
  /-- The field `ByteOrder`. -/
  Order : ByteOrder
  /-- The field `Sections`. -/
  Sections : List MachoSection

/-- The first loop of `parseElf`: fills `dataSections`, skipping `SHT_NOBITS` sections. -/
def collectElf : List ElfSection → List (Uintptr × List Byte) →
    Except Failure (List (Uintptr × List Byte))
  | [], dataSections => .ok dataSections
  | sec :: rest, dataSections =>
    if sec.SType = SHT_NOBITS then collectElf rest dataSections
    else
      match sec.Data with
      | .error e => .error e
      | .ok data => collectElf rest (mapSet dataSections sec.Addr data)

/-- The statement `stringMap[str] = struct{}{}`: a set of strings held as a list without
repetition. -/
def setAdd (stringMap : List GoString) (str : GoString) : List GoString :=
  if str ∈ stringMap then stringMap else stringMap ++ [str]

/-- The loop `for _, str := range findStringsInSection(...) { stringMap[str] = struct{}{} }`. -/
def addAll (stringMap : List GoString) (strs : List GoString) : List GoString :=
  strs.foldl setAdd stringMap

/-- The second loop of `parseElf`: scans every section that is not `SHT_NOBITS`. -/
def scanElf (ptrSize : Nat) (byteOrder : ByteOrder) (dataSections : List (Uintptr × List Byte)) :
    List ElfSection → List GoString → Except Failure (List GoString)
  | [], stringMap => .ok stringMap
  | sec :: rest, stringMap =>
    if sec.SType = SHT_NOBITS then scanElf ptrSize byteOrder dataSections rest stringMap
    else
      match sec.Data with
      | .error e => .error e
      | .ok sectionData =>
        match findStringsInSection ptrSize byteOrder sectionData dataSections with
        | .error e => .error e
        | .ok strs => scanElf ptrSize byteOrder dataSections rest (addAll stringMap strs)

/-- The function `parseElf`; the result lists the keys of `stringMap` (in the order of the
embedding, Go leaves it open). -/
def parseElf (f : ElfFile) : Except Failure (List GoString) :=
  match collectElf f.Sections [] with
  | .error e => .error e
  | .ok dataSections =>
    match ptrSizeForCpuElf f.Class with
    | .error e => .error e
    | .ok ptrSize => scanElf ptrSize f.Order dataSections f.Sections []

/-- The first loop of `parseMacho`: fills `dataSections`. -/
def collectMacho : List MachoSection → List (Uintptr × List Byte) →
    Except Failure (List (Uintptr × List Byte))
  | [], dataSections => .ok dataSections
  | sec :: rest, dataSections =>
    match sec.Data with
    | .error e => .error e
    | .ok data => collectMacho rest (mapSet dataSections sec.Addr data)

/-- The second loop of `parseMacho`: scans every section. -/
def scanMacho (ptrSize : Nat) (byteOrder : ByteOrder)
    (dataSections : List (Uintptr × List Byte)) :
    List MachoSection → List GoString → Except Failure (List GoString)
  | [], stringMap => .ok stringMap
  | sec :: rest, stringMap =>
    match sec.Data with
    | .error e => .error e
    | .ok sectionData =>
      match findStringsInSection ptrSize byteOrder sectionData dataSections with
      | .error e => .error e
      | .ok strs => scanMacho ptrSize byteOrder dataSections rest (addAll stringMap strs)

/-- The function `parseMacho`. -/
def parseMacho (f : MachoFile) : Except Failure (List GoString) :=
  match collectMacho f.Sections [] with
  | .error e => .error e
  | .ok dataSections =>
    match ptrSizeForCpuMacho f.Cpu with
    | .error e => .error e
    | .ok ptrSize => scanMacho ptrSize f.Order dataSections f.Sections []

/-! ## `main` -/

/-- The comparison `a < b` of two Go strings: byte-wise lexicographic. -/
def stringLess : GoString → GoString → Bool
  | [], [] => false
  | [], _ :: _ => true
  | _ :: _, [] => false
  | a :: as, b :: bs =>
    if a.val < b.val then true else if b.val < a.val then false else stringLess as bs

/-- The order `sort.Strings` sorts by: `a` may stand before `b` when `b < a` is false. -/
def stringLE (a b : GoString) : Prop := stringLess b a = false

instance stringLE_decidable : DecidableRel stringLE :=
  fun a b => inferInstanceAs (Decidable (stringLess b a = false))

/-- The library call `sort.Strings(strs)`: the strings in increasing order. -/
def sortStrings (strs : List GoString) : List GoString :=
  strs.insertionSort stringLE

/-- What `main` makes of the file named on the command line. -/
inductive Binary where
  /-- The call `elf.NewFile` succeeded. -/
  | elf (f : ElfFile)
  /-- The call `macho.NewFile` succeeded (and `elf.NewFile` failed). -/
  | macho (f : MachoFile)
  /-- Neither front end accepts the file. -/
  | unknown

/-- The function `main` once the file is open: the lines printed, or the panic. -/
def main : Binary → Except Failure (List GoString)
  | .elf f =>
    match parseElf f with
    | .error e => .error e
    | .ok strs => .ok (sortStrings strs)
  | .macho f =>
    match parseMacho f with
    | .error e => .error e
    | .ok strs => .ok (sortStrings strs)
  | .unknown => .error .unknownFormat

/-! ## Building test inputs -/

/-- The byte `n mod 256`. -/
def byteOf (n : Nat) : Byte := ⟨n % 256, Nat.mod_lt n (by decide)⟩

/-- The eight bytes of the 64-bit word `x` in the given byte order (what
`ByteOrder.PutUint64` writes). -/
def putUint64 : ByteOrder → Nat → List Byte
  | .LittleEndian, x =>
    [byteOf x, byteOf (x / 2 ^ 8), byteOf (x / 2 ^ 16), byteOf (x / 2 ^ 24),
     byteOf (x / 2 ^ 32), byteOf (x / 2 ^ 40), byteOf (x / 2 ^ 48), byteOf (x / 2 ^ 56)]
  | .BigEndian, x =>
    [byteOf (x / 2 ^ 56), byteOf (x / 2 ^ 48), byteOf (x / 2 ^ 40), byteOf (x / 2 ^ 32),
     byteOf (x / 2 ^ 24), byteOf (x / 2 ^ 16), byteOf (x / 2 ^ 8), byteOf x]

/-- The four bytes of the 32-bit word `x` in the given byte order (what
`ByteOrder.PutUint32` writes). -/
def putUint32 : ByteOrder → Nat → List Byte
  | .LittleEndian, x => [byteOf x, byteOf (x / 2 ^ 8), byteOf (x / 2 ^ 16), byteOf (x / 2 ^ 24)]
  | .BigEndian, x => [byteOf (x / 2 ^ 24), byteOf (x / 2 ^ 16), byteOf (x / 2 ^ 8), byteOf x]

/-- The string `"HELLO"`. -/
def hello : GoString := [0x48, 0x45, 0x4c, 0x4c, 0x4f]

/-- The string `"ABCD"`. -/
def abcd : GoString := [0x41, 0x42, 0x43, 0x44]

/-! ## A closed description of the scan at pointer width 8

The functions below are not in the source: they say, without loops and without failure,
what the loops of `findStringsInSection` compute. The lemmas `rangeDataSections_eq` and
`findStringsInSection_eq` prove that they do. -/

/-- The 64-bit word of `d` at offset `i` (`0` when fewer than eight bytes follow `i`). -/
def word (bo : ByteOrder) (d : List Byte) (i : Nat) : Nat :=
  match bo.Uint64 (d.drop i) with
  | .ok x => x
  | .error _ => 0

/-- The range test of the inner loop on values without wrap in `ptr + length`. -/
def hits (ptr length : Nat) (e : Uintptr × List Byte) : Prop :=
  e.1.val ≤ ptr ∧ ptr + length ≤ (e.1.val + e.2.length % 2 ^ 64) % 2 ^ 64

instance hits_decidable (ptr length : Nat) (e : Uintptr × List Byte) :
    Decidable (hits ptr length e) :=
  inferInstanceAs (Decidable (_ ∧ _))

/-- The bytes `data[ptr-base : ptr-base+length]` of an entry `(base, data)`. -/
def bytesAt (ptr length : Nat) (e : Uintptr × List Byte) : List Byte :=
  (e.2.drop (ptr - e.1.val)).take length

/-- The strings one candidate adds to the result, entry by entry. -/
def resolved (ptr length : Nat) : List (Uintptr × List Byte) → List GoString
  | [] => []
  | e :: rest =>
    if hits ptr length e ∧ isPrintable (bytesAt ptr length e) = true then
      bytesAt ptr length e :: resolved ptr length rest
    else resolved ptr length rest

/-- The strings the candidate `(ptr, length)` adds to the result, the filter included. -/
def emitted (ptr length : Nat) (ds : List (Uintptr × List Byte)) : List GoString :=
  if length < MIN_LEN ∨ length > MAX_LEN ∨ ptr > 0xffffffffffff0000 then []
  else resolved ptr length ds

/-- The strings added by `k` consecutive iterations of the outer loop from offset `i` on. -/
def scanned (bo : ByteOrder) (d : List Byte) (ds : List (Uintptr × List Byte)) :
    Nat → Nat → List GoString
  | 0, _ => []
  | k + 1, i => emitted (word bo d i) (word bo d (i + 8)) ds ++ scanned bo d ds k (i + 8)

/-- The number of offsets `0, 8, 16, ...` the outer loop visits in a section of `n` bytes:
those `i` with `i + 16 < n`. -/
def visits (n : Nat) : Nat := (n - 9) / 8

/-- A section that holds the one candidate `(ptr, length)` at offset 0, followed by one
padding byte: the loop visits offset 0 and nothing else. -/
def descriptor (bo : ByteOrder) (ptr length : Nat) : List Byte :=
  putUint64 bo ptr ++ putUint64 bo length ++ [0]

/-- The address `0x1000`. -/
def addr1000 : Uintptr := ⟨0x1000, by decide⟩

/-- The address `0x2000`. -/
def addr2000 : Uintptr := ⟨0x2000, by decide⟩

/-- The address `0x3000`. -/
def addr3000 : Uintptr := ⟨0x3000, by decide⟩

/-- The address `0xFFFFFFFFFFFF0000`, the bound of the pointer filter. -/
def addrTop : Uintptr := ⟨0xffffffffffff0000, by decide⟩

/-- Section A of the scenario: `"HELLO"` and three bytes of zero padding. -/
def helloSectionA : List Byte := hello ++ [0, 0, 0]

/-- Section B of the scenario: the one word pair `(0x2000, 5)`, little-endian, 16 bytes. -/
def helloSectionB : List Byte :=
  putUint64 .LittleEndian 0x2000 ++ putUint64 .LittleEndian 5

/-- The scenario as a 64-bit little-endian ELF file: A at `0x2000`, then `b` at `0x3000`. -/
def helloFile (b : List Byte) : ElfFile :=
  { Class := ELFCLASS64, Order := .LittleEndian,
    Sections := [⟨1, addr2000, .ok helloSectionA⟩, ⟨1, addr3000, .ok b⟩] }

/-- The string `"WXYZ"`. -/
def wxyz : GoString := [0x57, 0x58, 0x59, 0x5a]

/-- A file with two sections at the same address `0x1000`, the first `"ABCD"`, the second
`"WXYZ"`, and at `0x3000` a section with the candidate `(0x1000, 4)`. -/
def sharedBaseFile : ElfFile :=
  { Class := ELFCLASS64, Order := .LittleEndian,
    Sections := [⟨1, addr1000, .ok abcd⟩, ⟨1, addr1000, .ok wxyz⟩,
      ⟨1, addr3000, .ok (descriptor .LittleEndian 0x1000 4)⟩] }

/-- The word pair `(0x2000, 5)` in two little-endian 4-byte words, 8 bytes. -/
def helloPair32 : List Byte :=
  putUint32 .LittleEndian 0x2000 ++ putUint32 .LittleEndian 5

/-- The scenario as a 32-bit little-endian ELF file: A at `0x2000`, then `b` at `0x3000`. -/
def helloFile32 (b : List Byte) : ElfFile :=
  { Class := ELFCLASS32, Order := .LittleEndian,
    Sections := [⟨1, addr2000, .ok helloSectionA⟩, ⟨1, addr3000, .ok b⟩] }

/-- A section of `0x10000` letters `A`: placed at `0xFFFFFFFFFFFF0000` it ends at `2 ^ 64`. -/
def topSection : List Byte := List.replicate 0x10000 0x41

/-- A section with content (type `SHT_PROGBITS`) at address `e.1` with the bytes `e.2`. -/
def progbits (e : Uintptr × List Byte) : ElfSection :=
  { SType := 1, Addr := e.1, Data := .ok e.2 }

/-- The sections of `sharedBaseFile` in a 64-bit little-endian Mach-O file. -/
def sharedBaseMacho : MachoFile :=
  { Cpu := CpuAmd64, Order := .LittleEndian,
    Sections := [⟨addr1000, .ok abcd⟩, ⟨addr1000, .ok wxyz⟩,
      ⟨addr3000, .ok (descriptor .LittleEndian 0x1000 4)⟩] }

/-- A Mach-O section seen as an ELF section with content: `parseMacho` treats every section
the way `parseElf` treats a section that is not `SHT_NOBITS`. -/
def asElfSection (s : MachoSection) : ElfSection :=
  { SType := 1, Addr := s.Addr, Data := s.Data }

/-- A section with the candidates `(0x1000, 4)` and `(0x2000, 4)` at the offsets 0 and 16
(the pair read at offset 8 has the length `0x2000` and is rejected) and one padding byte. -/
def twoDescriptors : List Byte :=
  putUint64 .LittleEndian 0x1000 ++ putUint64 .LittleEndian 4 ++
    putUint64 .LittleEndian 0x2000 ++ putUint64 .LittleEndian 4 ++ [0]

/-- A file in which the scan finds `"WXYZ"` first and `"ABCD"` second. -/
def twoStringsFile : ElfFile :=
  { Class := ELFCLASS64, Order := .LittleEndian,
    Sections := [⟨1, addr1000, .ok wxyz⟩, ⟨1, addr2000, .ok abcd⟩,
      ⟨1, addr3000, .ok twoDescriptors⟩] }

/-- A section with the candidate `(0x2000, 5)` twice, at the offsets 0 and 16, and one
padding byte. -/
def helloTwice : List Byte :=
  putUint64 .LittleEndian 0x2000 ++ putUint64 .LittleEndian 5 ++
    putUint64 .LittleEndian 0x2000 ++ putUint64 .LittleEndian 5 ++ [0]

/-! ## The iteration order of maps

Go leaves open the order in which `range` visits a map and the order in which `maps.Keys`
yields the keys, and the order may change from one statement to the next. The functions
below are the scanner and the front ends with these orders as arguments: `order k i` is
the order of the `range dataSections` statement run for offset `i` of section number `k`,
and `keys` is the order in which the keys of `stringMap` are collected. The functions
above are the instance in which every order is that of the association list. -/

/-- An order of visiting the entries of `dataSections`. -/
abbrev RangeOrder := List (Uintptr × List Byte) → List (Uintptr × List Byte)

/-- The outer loop of `findStringsInSection` with the order of each inner `range` given. -/
def scanFromIn (ptrSize : Nat) (byteOrder : ByteOrder) (sectionData : List Byte)
    (dataSections : List (Uintptr × List Byte)) (order : Nat → RangeOrder) :
    Nat → Nat → List GoString → Except Failure (List GoString)
  | fuel, i, result =>
    if (i : Int) < (sectionData.length : Int) - 2 * (ptrSize : Int) then
      match fuel with
      | 0 => .error .outOfFuel
      | fuel + 1 =>
        match slice sectionData i (i + ptrSize) with
        | .error e => .error e
        | .ok ptrBytes =>
        match byteOrder.Uint64 ptrBytes with
        | .error e => .error e
        | .ok ptr =>
        match slice sectionData (i + ptrSize) (i + 2 * ptrSize) with
        | .error e => .error e
        | .ok lengthBytes =>
        match byteOrder.Uint64 lengthBytes with
        | .error e => .error e
        | .ok length =>
          if length < MIN_LEN ∨ length > MAX_LEN ∨ ptr > 0xffffffffffff0000 then
            scanFromIn ptrSize byteOrder sectionData dataSections order fuel (i + ptrSize)
              result
          else
            match rangeDataSections ptr length (order i dataSections) result with
            | .error e => .error e
            | .ok result' =>
              scanFromIn ptrSize byteOrder sectionData dataSections order fuel (i + ptrSize)
                result'
    else
      .ok result

/-- The function `findStringsInSection` with the order of each inner `range` given. -/
def findStringsInSectionIn (ptrSize : Nat) (byteOrder : ByteOrder) (sectionData : List Byte)
    (dataSections : List (Uintptr × List Byte)) (order : Nat → RangeOrder) :
    Except Failure (List GoString) :=
  scanFromIn ptrSize byteOrder sectionData dataSections order sectionData.length 0 []

/-- The second loop of `parseElf` with the orders given; the first number counts the
sections passed. -/
def scanElfIn (ptrSize : Nat) (byteOrder : ByteOrder) (dataSections : List (Uintptr × List Byte))
    (order : Nat → Nat → RangeOrder) :
    Nat → List ElfSection → List GoString → Except Failure (List GoString)
  | _, [], stringMap => .ok stringMap
  | k, sec :: rest, stringMap =>
    if sec.SType = SHT_NOBITS then
      scanElfIn ptrSize byteOrder dataSections order (k + 1) rest stringMap
    else
      match sec.Data with
      | .error e => .error e
      | .ok sectionData =>
        match findStringsInSectionIn ptrSize byteOrder sectionData dataSections (order k) with
        | .error e => .error e
        | .ok strs =>
          scanElfIn ptrSize byteOrder dataSections order (k + 1) rest (addAll stringMap strs)

/-- The function `parseElf` with the orders given: `keys` is the order in which
`slices.Collect(maps.Keys(stringMap))` lists the set. -/
def parseElfIn (f : ElfFile) (order : Nat → Nat → RangeOrder)
    (keys : List GoString → List GoString) : Except Failure (List GoString) :=
  match collectElf f.Sections [] with
  | .error e => .error e
  | .ok dataSections =>
    match ptrSizeForCpuElf f.Class with
    | .error e => .error e
    | .ok ptrSize =>
      match scanElfIn ptrSize f.Order dataSections order 0 f.Sections [] with
      | .error e => .error e
      | .ok stringMap => .ok (keys stringMap)

/-- The second loop of `parseMacho` with the orders given. -/
def scanMachoIn (ptrSize : Nat) (byteOrder : ByteOrder)
    (dataSections : List (Uintptr × List Byte)) (order : Nat → Nat → RangeOrder) :
    Nat → List MachoSection → List GoString → Except Failure (List GoString)
  | _, [], stringMap => .ok stringMap
  | k, sec :: rest, stringMap =>
    match sec.Data with
    | .error e => .error e
    | .ok sectionData =>
      match findStringsInSectionIn ptrSize byteOrder sectionData dataSections (order k) with
      | .error e => .error e
      | .ok strs =>
        scanMachoIn ptrSize byteOrder dataSections order (k + 1) rest (addAll stringMap strs)

/-- The function `parseMacho` with the orders given. -/
def parseMachoIn (f : MachoFile) (order : Nat → Nat → RangeOrder)
    (keys : List GoString → List GoString) : Except Failure (List GoString) :=
  match collectMacho f.Sections [] with
  | .error e => .error e
  | .ok dataSections =>
    match ptrSizeForCpuMacho f.Cpu with
    | .error e => .error e
    | .ok ptrSize =>
      match scanMachoIn ptrSize f.Order dataSections order 0 f.Sections [] with
      | .error e => .error e
      | .ok stringMap => .ok (keys stringMap)

/-- The function `main` with the orders given. -/
def mainIn (order : Nat → Nat → RangeOrder) (keys : List GoString → List GoString) :
    Binary → Except Failure (List GoString)
  | .elf f =>
    match parseElfIn f order keys with
    | .error e => .error e
    | .ok strs => .ok (sortStrings strs)
  | .macho f =>
    match parseMachoIn f order keys with
    | .error e => .error e
    | .ok strs => .ok (sortStrings strs)
  | .unknown => .error .unknownFormat

/-! # Lemmas

## Words and slices -/


theorem uintptr_of_lt {x : Nat} (h : x < 2 ^ 64) : uintptr x = x := by
  unfold uintptr; omega

theorem eight_of_length {b : List Byte} (h : 8 ≤ b.length) :
    ∃ b0 b1 b2 b3 b4 b5 b6 b7 rest,
      b = b0 :: b1 :: b2 :: b3 :: b4 :: b5 :: b6 :: b7 :: rest := by
  match b, h with
  | b0 :: b1 :: b2 :: b3 :: b4 :: b5 :: b6 :: b7 :: rest, _ =>
    exact ⟨b0, b1, b2, b3, b4, b5, b6, b7, rest, rfl⟩
  | [], h => simp at h
  | [_], h => simp at h
  | [_, _], h => simp at h
  | [_, _, _], h => simp at h
  | [_, _, _, _], h => simp at h
  | [_, _, _, _, _], h => simp at h
  | [_, _, _, _, _, _], h => simp at h
  | [_, _, _, _, _, _, _], h => simp at h

/-- A read of eight bytes or more succeeds, and the value fits in 64 bits. -/
theorem Uint64_ok (bo : ByteOrder) {b : List Byte} (h : 8 ≤ b.length) :
    ∃ x, bo.Uint64 b = .ok x ∧ x < 2 ^ 64 := by
  obtain ⟨b0, b1, b2, b3, b4, b5, b6, b7, rest, rfl⟩ := eight_of_length h
  have h0 := b0.isLt
  have h1 := b1.isLt
  have h2 := b2.isLt
  have h3 := b3.isLt
  have h4 := b4.isLt
  have h5 := b5.isLt
  have h6 := b6.isLt
  have h7 := b7.isLt
  cases bo
  · exact ⟨_, rfl, by omega⟩
  · exact ⟨_, rfl, by omega⟩

/-- A read of fewer than eight bytes panics. -/
theorem Uint64_short (bo : ByteOrder) {b : List Byte} (h : b.length < 8) :
    bo.Uint64 b = .error .outOfRange := by
  match b, h with
  | b0 :: b1 :: b2 :: b3 :: b4 :: b5 :: b6 :: b7 :: rest, h => simp at h; omega
  | [], _ => cases bo <;> rfl
  | [_], _ => cases bo <;> rfl
  | [_, _], _ => cases bo <;> rfl
  | [_, _, _], _ => cases bo <;> rfl
  | [_, _, _, _], _ => cases bo <;> rfl
  | [_, _, _, _, _], _ => cases bo <;> rfl
  | [_, _, _, _, _, _], _ => cases bo <;> rfl
  | [_, _, _, _, _, _, _], _ => cases bo <;> rfl

/-- Only the first eight bytes count. -/
theorem Uint64_take (bo : ByteOrder) (b : List Byte) (n : Nat) (h : 8 ≤ n) :
    bo.Uint64 (b.take n) = bo.Uint64 b := by
  by_cases hb : 8 ≤ b.length
  · obtain ⟨b0, b1, b2, b3, b4, b5, b6, b7, rest, rfl⟩ := eight_of_length hb
    obtain ⟨m, rfl⟩ : ∃ m, n = m + 8 := ⟨n - 8, by omega⟩
    cases bo <;> rfl
  · rw [List.take_of_length_le (by omega)]

/-- Reading back what `putUint64` wrote. -/
theorem Uint64_put (bo : ByteOrder) (x : Nat) (rest : List Byte) :
    bo.Uint64 (putUint64 bo x ++ rest) = .ok (x % 2 ^ 64) := by
  cases bo
  · simp only [putUint64, byteOf, List.cons_append, List.nil_append, ByteOrder.Uint64]
    congr 1
    omega
  · simp only [putUint64, byteOf, List.cons_append, List.nil_append, ByteOrder.Uint64]
    congr 1
    omega

theorem putUint64_length (bo : ByteOrder) (x : Nat) : (putUint64 bo x).length = 8 := by
  cases bo <;> rfl

/-- A slice inside the bounds is the bytes between the two indices. -/
theorem slice_ok (s : List Byte) {lo hi : Nat} (h1 : lo ≤ hi) (h2 : hi ≤ s.length) :
    slice s lo hi = .ok ((s.drop lo).take (hi - lo)) := by
  unfold slice
  rw [if_pos ⟨h1, h2⟩]

/-- The word read at offset `i` when eight bytes follow. -/
theorem Uint64_drop (bo : ByteOrder) (d : List Byte) {i : Nat} (h : i + 8 ≤ d.length) :
    bo.Uint64 (d.drop i) = .ok (word bo d i) ∧ word bo d i < 2 ^ 64 := by
  obtain ⟨x, hx, hlt⟩ := Uint64_ok bo (b := d.drop i) (by rw [List.length_drop]; omega)
  unfold word
  rw [hx]
  exact ⟨rfl, hlt⟩

/-- The range test of the inner loop, for a candidate that passed the filter. -/
theorem range_test_iff {ptr length : Nat} (e : Uintptr × List Byte)
    (hl : length ≤ 2048) (hp : ptr ≤ 0xffffffffffff0000) :
    (uintptr ptr ≥ e.1.val ∧
      uadd (uintptr ptr) (uintptr length) ≤ uadd e.1.val (uintptr e.2.length))
      ↔ hits ptr length e := by
  unfold hits uadd uintptr
  have := e.1.isLt
  rw [Nat.mod_eq_of_lt (show ptr < 2 ^ 64 by omega),
    Nat.mod_eq_of_lt (show length < 2 ^ 64 by omega),
    Nat.mod_eq_of_lt (show ptr + length < 2 ^ 64 by omega)]

/-- A hit is in bounds: the section does not wrap and holds the whole range. -/
theorem hits_bounds {ptr length : Nat} {e : Uintptr × List Byte}
    (hp : ptr ≤ 0xffffffffffff0000) (hl : length ≤ 2048) (h : hits ptr length e) :
    e.1.val + e.2.length % 2 ^ 64 < 2 ^ 64 ∧
      ptr - e.1.val + length ≤ e.2.length % 2 ^ 64 := by
  unfold hits at h
  have := e.1.isLt
  omega

/-! ## The inner loop -/

/-- One step of the inner loop for a candidate that passed the filter. -/
theorem rangeDataSections_cons {ptr length : Nat} (hl : length ≤ 2048)
    (hp : ptr ≤ 0xffffffffffff0000) (e : Uintptr × List Byte)
    (rest : List (Uintptr × List Byte)) (result : List GoString) :
    rangeDataSections ptr length (e :: rest) result =
      rangeDataSections ptr length rest
        (if hits ptr length e ∧ isPrintable (bytesAt ptr length e) = true then
          result ++ [bytesAt ptr length e] else result) := by
  obtain ⟨base, data⟩ := e
  rw [rangeDataSections]
  by_cases h : hits ptr length (base, data)
  · have hb := hits_bounds hp hl h
    have hbase := base.isLt
    have hle : base.val ≤ ptr := h.1
    simp only at hb hle
    have hoff : usub (uintptr ptr) base.val = ptr - base.val := by
      unfold usub uintptr
      rw [Nat.mod_eq_of_lt (show ptr < 2 ^ 64 by omega)]
      omega
    have hend : uadd (ptr - base.val) (uintptr length) = ptr - base.val + length := by
      unfold uadd uintptr
      rw [Nat.mod_eq_of_lt (show length < 2 ^ 64 by omega)]
      omega
    have hlen : data.length % 2 ^ 64 ≤ data.length := Nat.mod_le _ _
    rw [if_pos ((range_test_iff (base, data) hl hp).2 h)]
    simp only [hoff, hend]
    rw [if_pos (show ptr - base.val + length ≤ uintptr data.length by
      unfold uintptr; exact hb.2)]
    rw [slice_ok data (by omega) (by omega)]
    have hsub : ptr - base.val + length - (ptr - base.val) = length := by omega
    simp only [hsub]
    by_cases hpr : isPrintable (bytesAt ptr length (base, data)) = true
    · have hpr2 : isPrintable (List.take length (List.drop (ptr - base.val) data)) = true := hpr
      rw [if_pos hpr2, if_pos ⟨h, hpr⟩]
      rfl
    · have hpr2 : ¬ isPrintable (List.take length (List.drop (ptr - base.val) data)) = true :=
        hpr
      rw [if_neg hpr2, if_neg (fun hc => hpr hc.2)]
  · rw [if_neg (fun hc => h ((range_test_iff (base, data) hl hp).1 hc))]
    rw [if_neg (fun hc => h hc.1)]

/-- The inner loop never fails for a candidate that passed the filter, and it appends the
strings of `resolved`. -/
theorem rangeDataSections_eq {ptr length : Nat} (hl : length ≤ 2048)
    (hp : ptr ≤ 0xffffffffffff0000) (ds : List (Uintptr × List Byte))
    (result : List GoString) :
    rangeDataSections ptr length ds result = .ok (result ++ resolved ptr length ds) := by
  induction ds generalizing result with
  | nil => simp [rangeDataSections, resolved]
  | cons e rest ih =>
    rw [rangeDataSections_cons hl hp, ih, resolved]
    by_cases h : hits ptr length e ∧ isPrintable (bytesAt ptr length e) = true
    · rw [if_pos h, if_pos h]; simp
    · rw [if_neg h, if_neg h]

/-! ## The outer loop -/

/-- The loop condition `i < len(sectionData)-2*ptrSize` on natural numbers. -/
theorem loop_cond (i n ptrSize : Nat) :
    ((i : Int) < (n : Int) - 2 * (ptrSize : Int)) ↔ i + 2 * ptrSize < n := by
  omega

/-- The loop stops, with the strings found so far, once the condition fails. -/
theorem scanFrom_done (ptrSize : Nat) (bo : ByteOrder) (d : List Byte)
    (ds : List (Uintptr × List Byte)) (fuel i : Nat) (result : List GoString)
    (h : ¬ i + 2 * ptrSize < d.length) :
    scanFrom ptrSize bo d ds fuel i result = .ok result := by
  unfold scanFrom
  rw [if_neg (fun hc => h ((loop_cond i d.length ptrSize).1 hc))]

/-- One iteration of the loop at pointer width 8. -/
theorem scanFrom_step (bo : ByteOrder) (d : List Byte) (ds : List (Uintptr × List Byte))
    (fuel i : Nat) (result : List GoString) (h : i + 16 < d.length) :
    scanFrom 8 bo d ds (fuel + 1) i result =
      scanFrom 8 bo d ds fuel (i + 8)
        (result ++ emitted (word bo d i) (word bo d (i + 8)) ds) := by
  rw [scanFrom, if_pos ((loop_cond i d.length 8).2 (by omega))]
  have hw1 := Uint64_drop bo d (i := i) (by omega)
  have hw2 := Uint64_drop bo d (i := i + 8) (by omega)
  have hs1 : slice d i (i + 8) = .ok ((d.drop i).take 8) := by
    rw [slice_ok d (by omega) (by omega), show i + 8 - i = 8 by omega]
  have hs2 : slice d (i + 8) (i + 2 * 8) = .ok ((d.drop (i + 8)).take 8) := by
    rw [slice_ok d (by omega) (by omega), show i + 2 * 8 - (i + 8) = 8 by omega]
  have hu1 : bo.Uint64 ((d.drop i).take 8) = .ok (word bo d i) := by
    rw [Uint64_take bo _ 8 (le_refl 8), hw1.1]
  have hu2 : bo.Uint64 ((d.drop (i + 8)).take 8) = .ok (word bo d (i + 8)) := by
    rw [Uint64_take bo _ 8 (le_refl 8), hw2.1]
  simp only [hs1, hu1, hs2, hu2]
  unfold emitted
  by_cases hf : word bo d (i + 8) < MIN_LEN ∨ word bo d (i + 8) > MAX_LEN ∨
      word bo d i > 0xffffffffffff0000
  · rw [if_pos hf, if_pos hf, List.append_nil]
  · rw [if_neg hf, if_neg hf]
    have hl : word bo d (i + 8) ≤ 2048 := by
      unfold MAX_LEN at hf; omega
    have hp : word bo d i ≤ 0xffffffffffff0000 := by omega
    rw [rangeDataSections_eq hl hp]

/-- The outer loop at pointer width 8 never fails: given enough iterations it returns the
strings found so far followed by those of the remaining offsets. -/
theorem scanFrom_eq (bo : ByteOrder) (d : List Byte) (ds : List (Uintptr × List Byte))
    (fuel : Nat) :
    ∀ (i : Nat) (result : List GoString), (d.length - i - 9) / 8 ≤ fuel →
      scanFrom 8 bo d ds fuel i result
        = .ok (result ++ scanned bo d ds ((d.length - i - 9) / 8) i) := by
  induction fuel with
  | zero =>
    intro i result hf
    have h0 : (d.length - i - 9) / 8 = 0 := by omega
    rw [scanFrom_done 8 bo d ds 0 i result (by omega), h0]
    simp [scanned]
  | succ fuel ih =>
    intro i result hf
    by_cases h : i + 16 < d.length
    · have hk : (d.length - i - 9) / 8 = (d.length - (i + 8) - 9) / 8 + 1 := by omega
      rw [scanFrom_step bo d ds fuel i result h, ih (i + 8) _ (by omega), hk, scanned]
      simp
    · have h0 : (d.length - i - 9) / 8 = 0 := by omega
      rw [scanFrom_done 8 bo d ds _ i result (by omega), h0]
      simp [scanned]

/-- At pointer width 8 `findStringsInSection` returns, for every input, the strings of the
visited offsets in order. -/
theorem findStringsInSection_eq (bo : ByteOrder) (d : List Byte)
    (ds : List (Uintptr × List Byte)) :
    findStringsInSection 8 bo d ds = .ok (scanned bo d ds (visits d.length) 0) := by
  unfold findStringsInSection visits
  rw [scanFrom_eq bo d ds d.length 0 [] (by omega)]
  simp

/-! ## What the result holds -/

/-- The function `isPrintable` accepts exactly the byte strings with all bytes in `32..126`. -/
theorem isPrintable_iff (data : List Byte) :
    isPrintable data = true ↔ ∀ b ∈ data, 32 ≤ b.val ∧ b.val ≤ 126 := by
  induction data with
  | nil => simp [isPrintable]
  | cons b rest ih =>
    rw [isPrintable]
    by_cases h : b.val < 32 ∨ b.val > 126
    · rw [if_pos h]
      constructor
      · intro hc; cases hc
      · intro hall
        have := hall b (List.mem_cons_self b rest)
        omega
    · rw [if_neg h, ih]
      constructor
      · intro hall x hx
        rcases List.mem_cons.1 hx with rfl | hx
        · omega
        · exact hall x hx
      · intro hall x hx
        exact hall x (List.mem_cons_of_mem b hx)

/-- The strings a candidate resolves to: one for each entry that holds the range and whose
bytes there are printable. -/
theorem mem_resolved {ptr length : Nat} {ds : List (Uintptr × List Byte)} {s : GoString} :
    s ∈ resolved ptr length ds ↔
      ∃ e ∈ ds, hits ptr length e ∧ isPrintable (bytesAt ptr length e) = true ∧
        s = bytesAt ptr length e := by
  induction ds with
  | nil => simp [resolved]
  | cons e rest ih =>
    rw [resolved]
    by_cases h : hits ptr length e ∧ isPrintable (bytesAt ptr length e) = true
    · rw [if_pos h, List.mem_cons, ih]
      constructor
      · rintro (rfl | ⟨e', he', hh⟩)
        · exact ⟨e, List.mem_cons_self e rest, h.1, h.2, rfl⟩
        · exact ⟨e', List.mem_cons_of_mem e he', hh⟩
      · rintro ⟨e', he', hh⟩
        rcases List.mem_cons.1 he' with rfl | he'
        · exact Or.inl hh.2.2
        · exact Or.inr ⟨e', he', hh⟩
    · rw [if_neg h, ih]
      constructor
      · rintro ⟨e', he', hh⟩
        exact ⟨e', List.mem_cons_of_mem e he', hh⟩
      · rintro ⟨e', he', hh⟩
        rcases List.mem_cons.1 he' with rfl | he'
        · exact absurd ⟨hh.1, hh.2.1⟩ h
        · exact ⟨e', he', hh⟩

/-- The strings found in `k` iterations from offset `i` on are those of the offsets
`i, i + 8, ..., i + 8 (k - 1)`. -/
theorem mem_scanned {bo : ByteOrder} {d : List Byte} {ds : List (Uintptr × List Byte)}
    {s : GoString} (k : Nat) :
    ∀ i : Nat, s ∈ scanned bo d ds k i ↔
      ∃ j, j < k ∧ s ∈ emitted (word bo d (i + 8 * j)) (word bo d (i + 8 * j + 8)) ds := by
  induction k with
  | zero => intro i; simp [scanned]
  | succ k ih =>
    intro i
    rw [scanned, List.mem_append, ih (i + 8)]
    constructor
    · rintro (h | ⟨j, hj, h⟩)
      · exact ⟨0, by omega, by simpa using h⟩
      · refine ⟨j + 1, by omega, ?_⟩
        rw [show i + 8 * (j + 1) = i + 8 + 8 * j by omega]
        exact h
    · rintro ⟨j, hj, h⟩
      cases j with
      | zero => exact Or.inl (by simpa using h)
      | succ j =>
        refine Or.inr ⟨j, by omega, ?_⟩
        rw [show i + 8 * (j + 1) = i + 8 + 8 * j by omega] at h
        exact h

/-- The bytes of a hit have exactly the length of the candidate. -/
theorem bytesAt_length {ptr length : Nat} {e : Uintptr × List Byte}
    (hp : ptr ≤ 0xffffffffffff0000) (hl : length ≤ 2048) (h : hits ptr length e) :
    (bytesAt ptr length e).length = length := by
  have hb := hits_bounds hp hl h
  have hlen : e.2.length % 2 ^ 64 ≤ e.2.length := Nat.mod_le _ _
  unfold bytesAt
  rw [List.length_take, List.length_drop]
  omega

/-- The range test against a section that does not reach the end of the address space is
containment of `[ptr, ptr + length)` in `[base, base + len)`. -/
theorem hits_iff_of_lt {ptr length : Nat} {e : Uintptr × List Byte}
    (h : e.1.val + e.2.length < 2 ^ 64) :
    hits ptr length e ↔ e.1.val ≤ ptr ∧ ptr + length ≤ e.1.val + e.2.length := by
  unfold hits
  rw [Nat.mod_eq_of_lt (show e.2.length < 2 ^ 64 by omega), Nat.mod_eq_of_lt h]

/-- The range test fails against a section that reaches the end of the address space,
for every candidate that passed the filter. -/
theorem not_hits_of_wrap {ptr length : Nat} {e : Uintptr × List Byte}
    (hp : ptr ≤ 0xffffffffffff0000) (hl : length ≤ 2048)
    (h : 2 ^ 64 ≤ e.1.val + e.2.length % 2 ^ 64) : ¬ hits ptr length e := by
  intro hh
  have := (hits_bounds hp hl hh).1
  omega

/-- The lemma `not_hits_of_wrap` for an entry written as a pair. -/
theorem not_hits_pair_of_wrap {ptr length : Nat} (b : Uintptr) (data : List Byte)
    (hp : ptr ≤ 0xffffffffffff0000) (hl : length ≤ 2048)
    (h : 2 ^ 64 ≤ b.val + data.length % 2 ^ 64) : ¬ hits ptr length (b, data) :=
  not_hits_of_wrap hp hl h

/-! ## Pointer width 4 -/

/-- At pointer width 4 the first iteration panics: `Uint64` is handed a four-byte slice. -/
theorem findStringsInSection_four_panics (bo : ByteOrder) (d : List Byte)
    (ds : List (Uintptr × List Byte)) (h : 8 < d.length) :
    findStringsInSection 4 bo d ds = .error .outOfRange := by
  unfold findStringsInSection
  obtain ⟨n, hn⟩ : ∃ n, d.length = n + 1 := ⟨d.length - 1, by omega⟩
  rw [hn, scanFrom, if_pos ((loop_cond 0 d.length 4).2 (by omega))]
  have hs : slice d 0 (0 + 4) = .ok ((d.drop 0).take 4) := by
    rw [slice_ok d (by omega) (by omega)]
  have hu : bo.Uint64 ((d.drop 0).take 4) = .error .outOfRange :=
    Uint64_short bo (by rw [List.length_take]; omega)
  simp only [hs, hu]

/-- At pointer width 4 a section of at most eight bytes is not scanned at all. -/
theorem findStringsInSection_four_short (bo : ByteOrder) (d : List Byte)
    (ds : List (Uintptr × List Byte)) (h : d.length ≤ 8) :
    findStringsInSection 4 bo d ds = .ok [] := by
  unfold findStringsInSection
  exact scanFrom_done 4 bo d ds _ 0 [] (by omega)

/-! ## Sections that hold one candidate -/

/-- A section of at most `2 * ptrSize` bytes is not scanned: the loop condition
`i < len(sectionData)-2*ptrSize` fails at `i = 0`. -/
theorem findStringsInSection_short (ptrSize : Nat) (bo : ByteOrder) (d : List Byte)
    (ds : List (Uintptr × List Byte)) (h : d.length ≤ 2 * ptrSize) :
    findStringsInSection ptrSize bo d ds = .ok [] := by
  unfold findStringsInSection
  exact scanFrom_done ptrSize bo d ds _ 0 [] (by omega)

/-- The word at offset 0 of a section that starts with `putUint64 bo x`. -/
theorem word_put (bo : ByteOrder) (x : Nat) (rest : List Byte) :
    word bo (putUint64 bo x ++ rest) 0 = x % 2 ^ 64 := by
  unfold word
  rw [List.drop_zero, Uint64_put]

/-- The word at offset 8 of a section whose second word is `putUint64 bo y`. -/
theorem word_put_second (bo : ByteOrder) (x y : Nat) (rest : List Byte) :
    word bo (putUint64 bo x ++ putUint64 bo y ++ rest) 8 = y % 2 ^ 64 := by
  unfold word
  rw [List.append_assoc, List.drop_append_of_le_length (by rw [putUint64_length]),
    List.drop_of_length_le (by rw [putUint64_length]), List.nil_append, Uint64_put]

/-- The scan of a section that holds one candidate: what the candidate resolves to. -/
theorem findStringsInSection_descriptor (bo : ByteOrder) (ptr length : Nat)
    (ds : List (Uintptr × List Byte)) :
    findStringsInSection 8 bo (descriptor bo ptr length) ds
      = .ok (emitted (ptr % 2 ^ 64) (length % 2 ^ 64) ds) := by
  have hlen : (descriptor bo ptr length).length = 17 := by
    simp [descriptor, putUint64_length]
  rw [findStringsInSection_eq, hlen]
  have hv : visits 17 = 1 := by decide
  rw [hv, scanned, scanned, List.append_nil]
  unfold descriptor
  rw [word_put_second, List.append_assoc, word_put]

/-- The offsets the loop visits in a section of `n` bytes. -/
theorem lt_visits_iff (j n : Nat) : j < visits n ↔ 8 * j + 16 < n := by
  unfold visits
  omega

/-- Every string of a candidate comes from an entry of the index: the filter passed, the
entry holds the range and the bytes are printable. -/
theorem mem_emitted {ptr length : Nat} {ds : List (Uintptr × List Byte)} {s : GoString} :
    s ∈ emitted ptr length ds ↔
      (4 ≤ length ∧ length ≤ 2048 ∧ ptr ≤ 0xffffffffffff0000) ∧
        ∃ e ∈ ds, hits ptr length e ∧ isPrintable (bytesAt ptr length e) = true ∧
          s = bytesAt ptr length e := by
  unfold emitted MIN_LEN MAX_LEN
  by_cases h : length < 4 ∨ length > 2048 ∨ ptr > 0xffffffffffff0000
  · rw [if_pos h]
    constructor
    · intro hc; cases hc
    · rintro ⟨hf, _⟩; omega
  · rw [if_neg h, mem_resolved]
    constructor
    · intro hr; exact ⟨by omega, hr⟩
    · rintro ⟨_, hr⟩; exact hr

/-- The strings of the result, one by one. -/
theorem mem_scanned_visits {bo : ByteOrder} {d : List Byte} {ds : List (Uintptr × List Byte)}
    {s : GoString} :
    s ∈ scanned bo d ds (visits d.length) 0 ↔
      ∃ j, 8 * j + 16 < d.length ∧
        (4 ≤ word bo d (8 * j + 8) ∧ word bo d (8 * j + 8) ≤ 2048 ∧
          word bo d (8 * j) ≤ 0xffffffffffff0000) ∧
        ∃ e ∈ ds, hits (word bo d (8 * j)) (word bo d (8 * j + 8)) e ∧
          isPrintable (bytesAt (word bo d (8 * j)) (word bo d (8 * j + 8)) e) = true ∧
          s = bytesAt (word bo d (8 * j)) (word bo d (8 * j + 8)) e := by
  rw [mem_scanned]
  constructor
  · rintro ⟨j, hj, hs⟩
    rw [Nat.zero_add] at hs
    exact ⟨j, (lt_visits_iff j _).1 hj, mem_emitted.1 hs⟩
  · rintro ⟨j, hj, hs⟩
    refine ⟨j, (lt_visits_iff j _).2 hj, ?_⟩
    rw [Nat.zero_add]
    exact mem_emitted.2 hs

/-- A string of capital letters `A` is printable. -/
theorem isPrintable_replicate (n : Nat) : isPrintable (List.replicate n (0x41 : Byte)) = true := by
  rw [isPrintable_iff]
  intro b hb
  rw [List.eq_of_mem_replicate hb]
  decide

/-- A candidate that passes the filter and points at the start of a section of `length`
letters `A` resolves to that section. -/
theorem emitted_self {ptr length : Nat} (hp : ptr < 2 ^ 64)
    (h : ¬ (length < 4 ∨ length > 2048 ∨ ptr > 0xffffffffffff0000)) :
    emitted ptr length [(⟨ptr, hp⟩, List.replicate length 0x41)]
      = [List.replicate length 0x41] := by
  have hb : bytesAt ptr length ((⟨ptr, hp⟩ : Uintptr), List.replicate length (0x41 : Byte))
      = List.replicate length 0x41 := by
    simp [bytesAt]
  have hh : hits ptr length ((⟨ptr, hp⟩ : Uintptr), List.replicate length (0x41 : Byte)) := by
    unfold hits
    simp only [List.length_replicate]
    omega
  unfold emitted MIN_LEN MAX_LEN
  rw [if_neg h, resolved, hb, if_pos ⟨hh, isPrintable_replicate length⟩, resolved]

/-- A candidate the filter rejects adds nothing. -/
theorem emitted_rejected {ptr length : Nat} (ds : List (Uintptr × List Byte))
    (h : length < 4 ∨ length > 2048 ∨ ptr > 0xffffffffffff0000) :
    emitted ptr length ds = [] := by
  unfold emitted MIN_LEN MAX_LEN
  rw [if_pos h]

/-! ## The loop budget is never used up -/

/-- A slice expression fails with a bounds panic only. -/
theorem slice_error {s : List Byte} {lo hi : Nat} {e : Failure}
    (h : slice s lo hi = .error e) : e = .outOfRange := by
  unfold slice at h
  split at h
  · cases h
  · exact (Except.error.inj h).symm

/-- A slice that succeeds has at most `hi - lo` bytes. -/
theorem slice_length {s r : List Byte} {lo hi : Nat} (h : slice s lo hi = .ok r) :
    r.length ≤ hi - lo := by
  unfold slice at h
  split at h
  · rw [← Except.ok.inj h, List.length_take]
    exact Nat.min_le_left _ _
  · cases h

/-- A word read fails with a bounds panic only. -/
theorem Uint64_error {bo : ByteOrder} {b : List Byte} {e : Failure}
    (h : bo.Uint64 b = .error e) : e = .outOfRange := by
  by_cases hb : 8 ≤ b.length
  · obtain ⟨x, hx, _⟩ := Uint64_ok bo hb
    rw [hx] at h
    cases h
  · rw [Uint64_short bo (by omega)] at h
    exact (Except.error.inj h).symm

/-- The inner loop fails with a bounds panic only. -/
theorem rangeDataSections_error {ptr length : Nat} {ds : List (Uintptr × List Byte)}
    {result : List GoString} {e : Failure}
    (h : rangeDataSections ptr length ds result = .error e) : e = .outOfRange := by
  induction ds generalizing result with
  | nil => rw [rangeDataSections] at h; cases h
  | cons entry rest ih =>
    obtain ⟨base, data⟩ := entry
    rw [rangeDataSections] at h
    split at h
    · simp only [] at h
      split at h
      · split at h
        · rename_i e' he'
          rw [← Except.error.inj h]
          exact slice_error he'
        · split at h
          · exact ih h
          · exact ih h
      · exact ih h
    · exact ih h

/-- The loop of `findStringsInSection` stops by itself for every pointer width: with a budget
of `len(sectionData) - i` iterations from offset `i` on, it never runs out. -/
theorem scanFrom_fuel (ptrSize : Nat) (bo : ByteOrder) (d : List Byte)
    (ds : List (Uintptr × List Byte)) (fuel : Nat) :
    ∀ (i : Nat) (result : List GoString), d.length ≤ fuel + i →
      scanFrom ptrSize bo d ds fuel i result ≠ .error .outOfFuel := by
  induction fuel with
  | zero =>
    intro i result hf
    rw [scanFrom_done ptrSize bo d ds 0 i result (by omega)]
    intro hc; cases hc
  | succ fuel ih =>
    intro i result hf
    by_cases hc : i + 2 * ptrSize < d.length
    · rw [scanFrom, if_pos ((loop_cond i d.length ptrSize).2 hc)]
      split
      · rename_i e he
        rw [slice_error he]
        intro hx; cases hx
      · rename_i ptrBytes hs
        split
        · rename_i e he
          rw [Uint64_error he]
          intro hx; cases hx
        · rename_i ptr hptr
          have h8 : 8 ≤ ptrSize := by
            by_contra hlt
            have hlen := slice_length hs
            rw [Uint64_short bo (by omega)] at hptr
            cases hptr
          split
          · rename_i e he
            rw [slice_error he]
            intro hx; cases hx
          · split
            · rename_i e he
              rw [Uint64_error he]
              intro hx; cases hx
            · split
              · exact ih (i + ptrSize) result (by omega)
              · split
                · rename_i e he
                  rw [rangeDataSections_error he]
                  intro hx; cases hx
                · exact ih (i + ptrSize) _ (by omega)
    · rw [scanFrom_done ptrSize bo d ds _ i result hc]
      intro hx; cases hx

/-- For every pointer width, byte order, section and index `findStringsInSection` stops: it
returns its strings or it panics on a bound. -/
theorem findStringsInSection_fuel (ptrSize : Nat) (bo : ByteOrder) (d : List Byte)
    (ds : List (Uintptr × List Byte)) :
    findStringsInSection ptrSize bo d ds ≠ .error .outOfFuel := by
  unfold findStringsInSection
  exact scanFrom_fuel ptrSize bo d ds d.length 0 [] (by omega)

/-! ## The address index -/

/-- Assigning to a key that is not in the map adds an entry at the end. -/
theorem mapSet_new {κ ν : Type} [DecidableEq κ] (m : List (κ × ν)) (k : κ) (v : ν)
    (h : ∀ e ∈ m, e.1 ≠ k) : mapSet m k v = m ++ [(k, v)] := by
  induction m with
  | nil => rfl
  | cons e rest ih =>
    obtain ⟨k', v'⟩ := e
    rw [mapSet, if_neg (h (k', v') (List.mem_cons_self _ _)),
      ih (fun e he => h e (List.mem_cons_of_mem _ he))]
    rfl

/-- Assigning to a key that is in the map replaces the bytes stored under it: the old bytes
are gone. -/
theorem mapSet_overwrites {κ ν : Type} [DecidableEq κ] (m : List (κ × ν)) (k : κ) (v w : ν) :
    mapSet (mapSet m k v) k w = mapSet m k w := by
  induction m with
  | nil => simp [mapSet]
  | cons e rest ih =>
    obtain ⟨k', v'⟩ := e
    by_cases hk : k' = k
    · simp [mapSet, hk]
    · simp [mapSet, hk, ih]

/-- The index of sections with content and pairwise distinct addresses is the list of these
sections, each with its bytes. -/
theorem collectElf_distinct (entries : List (Uintptr × List Byte)) :
    ∀ acc : List (Uintptr × List Byte),
      ((acc ++ entries).map Prod.fst).Nodup →
      collectElf (entries.map progbits) acc = .ok (acc ++ entries) := by
  induction entries with
  | nil => intro acc _; simp [collectElf]
  | cons e rest ih =>
    intro acc hnd
    have hnew : ∀ x ∈ acc, x.1 ≠ e.1 := by
      intro x hx hxe
      rw [List.map_append, List.map_cons] at hnd
      have hdis := (List.nodup_append.1 hnd).2.2
      exact hdis (List.mem_map_of_mem Prod.fst hx) (by rw [hxe]; exact List.mem_cons_self _ _)
    have hty : ¬ (progbits e).SType = SHT_NOBITS := by
      show ¬ (1 : Nat) = 8
      decide
    rw [List.map_cons, collectElf, if_neg hty]
    show collectElf (rest.map progbits) (mapSet acc e.1 e.2) = _
    rw [mapSet_new acc e.1 e.2 hnew, ih (acc ++ [(e.1, e.2)]) (by simpa using hnd)]
    simp

/-- The strings of one candidate: one for each entry of the index, in order, that holds the
range and whose bytes there are printable. -/
theorem resolved_eq (ptr length : Nat) (ds : List (Uintptr × List Byte)) :
    resolved ptr length ds =
      (ds.filter (fun e => decide (hits ptr length e ∧
        isPrintable (bytesAt ptr length e) = true))).map (bytesAt ptr length) := by
  induction ds with
  | nil => rfl
  | cons e rest ih =>
    rw [resolved, List.filter_cons]
    by_cases h : hits ptr length e ∧ isPrintable (bytesAt ptr length e) = true
    · rw [if_pos h, if_pos (decide_eq_true h), List.map_cons, ih]
    · rw [if_neg h, if_neg (by simpa using h), ih]

/-! ## Sections without content -/

/-- One step of the first loop of `parseElf`. -/
theorem collectElf_cons (sec : ElfSection) (rest : List ElfSection)
    (acc : List (Uintptr × List Byte)) :
    collectElf (sec :: rest) acc =
      if sec.SType = SHT_NOBITS then collectElf rest acc
      else
        match sec.Data with
        | .error e => .error e
        | .ok data => collectElf rest (mapSet acc sec.Addr data) := rfl

/-- One step of the second loop of `parseElf`. -/
theorem scanElf_cons (ptrSize : Nat) (bo : ByteOrder) (ds : List (Uintptr × List Byte))
    (sec : ElfSection) (rest : List ElfSection) (stringMap : List GoString) :
    scanElf ptrSize bo ds (sec :: rest) stringMap =
      if sec.SType = SHT_NOBITS then scanElf ptrSize bo ds rest stringMap
      else
        match sec.Data with
        | .error e => .error e
        | .ok sectionData =>
          match findStringsInSection ptrSize bo sectionData ds with
          | .error e => .error e
          | .ok strs => scanElf ptrSize bo ds rest (addAll stringMap strs) := rfl

/-- The first loop of `parseElf` passes over `SHT_NOBITS` sections. -/
theorem collectElf_filter (secs : List ElfSection) :
    ∀ acc : List (Uintptr × List Byte),
      collectElf (secs.filter (fun s => decide (s.SType ≠ SHT_NOBITS))) acc
        = collectElf secs acc := by
  induction secs with
  | nil => intro acc; rfl
  | cons sec rest ih =>
    intro acc
    by_cases h : sec.SType = SHT_NOBITS
    · rw [List.filter_cons_of_neg (by simpa using h), collectElf_cons sec rest acc, if_pos h, ih]
    · rw [List.filter_cons_of_pos (by simpa using h), collectElf_cons, collectElf_cons,
        if_neg h, if_neg h]
      cases sec.Data with
      | error e => rfl
      | ok data => exact ih _

/-- The second loop of `parseElf` passes over `SHT_NOBITS` sections. -/
theorem scanElf_filter (ptrSize : Nat) (bo : ByteOrder) (ds : List (Uintptr × List Byte))
    (secs : List ElfSection) :
    ∀ stringMap : List GoString,
      scanElf ptrSize bo ds (secs.filter (fun s => decide (s.SType ≠ SHT_NOBITS))) stringMap
        = scanElf ptrSize bo ds secs stringMap := by
  induction secs with
  | nil => intro sm; rfl
  | cons sec rest ih =>
    intro sm
    by_cases h : sec.SType = SHT_NOBITS
    · rw [List.filter_cons_of_neg (by simpa using h), scanElf_cons _ _ _ sec rest sm, if_pos h,
        ih]
    · rw [List.filter_cons_of_pos (by simpa using h), scanElf_cons, scanElf_cons, if_neg h,
        if_neg h]
      cases sec.Data with
      | error e => rfl
      | ok data =>
        simp only []
        cases findStringsInSection ptrSize bo data ds with
        | error e => rfl
        | ok strs => exact ih _

/-! ## `main` and the two front ends -/

/-- The lines `main` prints for an ELF file are the sorted strings of `parseElf`. -/
theorem main_elf_ok {f : ElfFile} {out : List GoString} :
    main (.elf f) = .ok out ↔ ∃ strs, parseElf f = .ok strs ∧ out = sortStrings strs := by
  show (match parseElf f with
    | .error e => .error e
    | .ok strs => .ok (sortStrings strs)) = Except.ok out ↔ _
  cases parseElf f with
  | error e =>
    constructor
    · intro h; cases h
    · rintro ⟨strs, h, _⟩; cases h
  | ok strs =>
    constructor
    · intro h; exact ⟨strs, rfl, (Except.ok.inj h).symm⟩
    · rintro ⟨strs', h, rfl⟩; rw [Except.ok.inj h]

/-- The lines `main` prints for a Mach-O file are the sorted strings of `parseMacho`. -/
theorem main_macho_ok {f : MachoFile} {out : List GoString} :
    main (.macho f) = .ok out ↔ ∃ strs, parseMacho f = .ok strs ∧ out = sortStrings strs := by
  show (match parseMacho f with
    | .error e => .error e
    | .ok strs => .ok (sortStrings strs)) = Except.ok out ↔ _
  cases parseMacho f with
  | error e =>
    constructor
    · intro h; cases h
    · rintro ⟨strs, h, _⟩; cases h
  | ok strs =>
    constructor
    · intro h; exact ⟨strs, rfl, (Except.ok.inj h).symm⟩
    · rintro ⟨strs', h, rfl⟩; rw [Except.ok.inj h]

/-! ## The order of `sort.Strings` -/

/-- No string is less than itself. -/
theorem stringLess_irrefl (a : GoString) : stringLess a a = false := by
  induction a with
  | nil => rfl
  | cons x xs ih =>
    rw [stringLess, if_neg (Nat.lt_irrefl _), if_neg (Nat.lt_irrefl _)]
    exact ih

/-- Of two different strings one is less than the other. -/
theorem stringLess_trichotomy (a : GoString) :
    ∀ b : GoString, stringLess a b = true ∨ a = b ∨ stringLess b a = true := by
  induction a with
  | nil =>
    intro b
    cases b with
    | nil => exact Or.inr (Or.inl rfl)
    | cons y ys => exact Or.inl rfl
  | cons x xs ih =>
    intro b
    cases b with
    | nil => exact Or.inr (Or.inr rfl)
    | cons y ys =>
      rw [stringLess, stringLess]
      by_cases h1 : x.val < y.val
      · rw [if_pos h1]; exact Or.inl rfl
      · by_cases h2 : y.val < x.val
        · rw [if_neg h1, if_pos h2, if_pos h2]; exact Or.inr (Or.inr rfl)
        · rw [if_neg h1, if_neg h2, if_neg h2, if_neg h1]
          have hxy : x = y := Fin.ext (by omega)
          rcases ih ys with h | h | h
          · exact Or.inl h
          · exact Or.inr (Or.inl (by rw [hxy, h]))
          · exact Or.inr (Or.inr h)

/-- The comparison is asymmetric. -/
theorem stringLess_asymm (a : GoString) :
    ∀ b : GoString, stringLess a b = true → stringLess b a = false := by
  induction a with
  | nil =>
    intro b _
    cases b with
    | nil => rfl
    | cons y ys => rfl
  | cons x xs ih =>
    intro b h
    cases b with
    | nil => cases h
    | cons y ys =>
      rw [stringLess] at h ⊢
      by_cases h1 : x.val < y.val
      · rw [if_neg (by omega), if_pos h1]
      · rw [if_neg h1] at h
        by_cases h2 : y.val < x.val
        · rw [if_pos h2] at h; cases h
        · rw [if_neg h2] at h
          rw [if_neg h2, if_neg h1]
          exact ih ys h

/-- The comparison is transitive. -/
theorem stringLess_trans (a : GoString) :
    ∀ b c : GoString, stringLess a b = true → stringLess b c = true →
      stringLess a c = true := by
  induction a with
  | nil =>
    intro b c hab hbc
    cases b with
    | nil => cases hab
    | cons y ys =>
      cases c with
      | nil => cases hbc
      | cons z zs => rfl
  | cons x xs ih =>
    intro b c hab hbc
    cases b with
    | nil => cases hab
    | cons y ys =>
      cases c with
      | nil => cases hbc
      | cons z zs =>
        rw [stringLess] at hab hbc ⊢
        by_cases hxy : x.val < y.val
        · by_cases hyz : y.val < z.val
          · rw [if_pos (by omega)]
          · rw [if_neg hyz] at hbc
            by_cases hzy : z.val < y.val
            · rw [if_pos hzy] at hbc; cases hbc
            · rw [if_pos (by omega)]
        · rw [if_neg hxy] at hab
          by_cases hyx : y.val < x.val
          · rw [if_pos hyx] at hab; cases hab
          · rw [if_neg hyx] at hab
            by_cases hyz : y.val < z.val
            · rw [if_pos (by omega)]
            · rw [if_neg hyz] at hbc
              by_cases hzy : z.val < y.val
              · rw [if_pos hzy] at hbc; cases hbc
              · rw [if_neg hzy] at hbc
                rw [if_neg (by omega), if_neg (by omega)]
                exact ih ys zs hab hbc

/-- The comparison is the lexicographic order of the bytes. -/
theorem stringLess_iff_lex (a : GoString) :
    ∀ b : GoString, stringLess a b = true ↔ List.Lex (fun x y : Byte => x < y) a b := by
  induction a with
  | nil =>
    intro b
    cases b with
    | nil =>
      constructor
      · intro h; cases h
      · intro h; cases h
    | cons y ys =>
      constructor
      · intro _; exact List.Lex.nil
      · intro _; rfl
  | cons x xs ih =>
    intro b
    cases b with
    | nil =>
      constructor
      · intro h; cases h
      · intro h; cases h
    | cons y ys =>
      rw [stringLess]
      by_cases h1 : x.val < y.val
      · rw [if_pos h1]
        exact ⟨fun _ => List.Lex.rel (Fin.lt_def.2 h1), fun _ => rfl⟩
      · rw [if_neg h1]
        by_cases h2 : y.val < x.val
        · rw [if_pos h2]
          constructor
          · intro h; cases h
          · intro h
            cases h with
            | cons h' => omega
            | rel h' => exact absurd (Fin.lt_def.1 h') h1
        · rw [if_neg h2, ih ys]
          have hxy : x = y := Fin.ext (by omega)
          subst hxy
          constructor
          · intro h; exact List.Lex.cons h
          · intro h
            cases h with
            | cons h' => exact h'
            | rel h' => exact absurd (Fin.lt_def.1 h') h1

/-- Of two strings one may stand before the other. -/
theorem stringLE_total : IsTotal GoString stringLE :=
  ⟨fun a b => by
    unfold stringLE
    rcases stringLess_trichotomy a b with h | h | h
    · exact Or.inl (stringLess_asymm a b h)
    · subst h; exact Or.inl (stringLess_irrefl a)
    · exact Or.inr (stringLess_asymm b a h)⟩

/-- The order of `sort.Strings` is transitive. -/
theorem stringLE_trans : IsTrans GoString stringLE :=
  ⟨fun a b c hab hbc => by
    unfold stringLE at *
    rcases stringLess_trichotomy a b with h | h | h
    · rcases stringLess_trichotomy b c with h' | h' | h'
      · exact stringLess_asymm a c (stringLess_trans a b c h h')
      · subst h'; exact hab
      · rw [h'] at hbc; cases hbc
    · subst h; exact hbc
    · rw [h] at hab; cases hab⟩

/-- Two strings that may each stand before the other are equal. -/
theorem stringLE_antisymm : IsAntisymm GoString stringLE :=
  ⟨fun a b hab hba => by
    unfold stringLE at *
    rcases stringLess_trichotomy a b with h | h | h
    · rw [h] at hba; cases hba
    · exact h
    · rw [h] at hab; cases hab⟩

/-- The library call `sort.Strings` returns its argument rearranged. -/
theorem sortStrings_perm (strs : List GoString) : (sortStrings strs).Perm strs :=
  List.perm_insertionSort stringLE strs

/-- The library call `sort.Strings` returns an increasing sequence. -/
theorem sortStrings_sorted (strs : List GoString) : (sortStrings strs).Sorted stringLE :=
  haveI := stringLE_total
  haveI := stringLE_trans
  List.sorted_insertionSort stringLE strs

/-- Sorted without repetition is strictly increasing. -/
theorem sortStrings_strict (strs : List GoString) (h : strs.Nodup) :
    (sortStrings strs).Pairwise (fun a b => stringLess a b = true) := by
  have hs : (sortStrings strs).Pairwise stringLE := sortStrings_sorted strs
  have hn : (sortStrings strs).Pairwise (fun a b => a ≠ b) :=
    (sortStrings_perm strs).nodup_iff.2 h
  refine (hs.and hn).imp ?_
  rintro a b ⟨hle, hne⟩
  unfold stringLE at hle
  rcases stringLess_trichotomy a b with h | h | h
  · exact h
  · exact absurd h hne
  · rw [h] at hle; cases hle

/-- Two rearrangements of the same strings are sorted to the same sequence. -/
theorem sortStrings_eq_of_perm {a b : List GoString} (h : a.Perm b) :
    sortStrings a = sortStrings b :=
  haveI := stringLE_antisymm
  List.eq_of_perm_of_sorted
    (((sortStrings_perm a).trans h).trans (sortStrings_perm b).symm)
    (sortStrings_sorted a) (sortStrings_sorted b)

/-! ## The string set -/

/-- The strings of the set after `stringMap[str] = struct{}{}`. -/
theorem mem_setAdd {m : List GoString} {s x : GoString} : x ∈ setAdd m s ↔ x ∈ m ∨ x = s := by
  unfold setAdd
  by_cases h : s ∈ m
  · rw [if_pos h]
    constructor
    · exact Or.inl
    · rintro (hx | rfl)
      · exact hx
      · exact h
  · rw [if_neg h, List.mem_append, List.mem_singleton]

/-- The set stays without repetition. -/
theorem setAdd_nodup {m : List GoString} (s : GoString) (h : m.Nodup) : (setAdd m s).Nodup := by
  unfold setAdd
  by_cases hs : s ∈ m
  · rw [if_pos hs]; exact h
  · rw [if_neg hs]
    exact List.nodup_append.2 ⟨h, List.nodup_singleton s, by
      intro a ha hb
      rw [List.mem_singleton] at hb
      exact hs (hb ▸ ha)⟩

/-- Adding a string that is in the set changes nothing. -/
theorem setAdd_of_mem {m : List GoString} {s : GoString} (h : s ∈ m) : setAdd m s = m := by
  unfold setAdd
  rw [if_pos h]

/-- Adding a string twice is adding it once. -/
theorem setAdd_idem (m : List GoString) (s : GoString) :
    setAdd (setAdd m s) s = setAdd m s :=
  setAdd_of_mem (mem_setAdd.2 (Or.inr rfl))

/-- The strings of the set after a whole result was added. -/
theorem mem_addAll {strs : List GoString} :
    ∀ {m : List GoString} {x : GoString}, x ∈ addAll m strs ↔ x ∈ m ∨ x ∈ strs := by
  induction strs with
  | nil => intro m x; simp [addAll]
  | cons s rest ih =>
    intro m x
    show x ∈ addAll (setAdd m s) rest ↔ _
    rw [ih, mem_setAdd, List.mem_cons]
    tauto

/-- The set stays without repetition when a whole result is added. -/
theorem addAll_nodup {strs : List GoString} :
    ∀ {m : List GoString}, m.Nodup → (addAll m strs).Nodup := by
  induction strs with
  | nil => intro m h; exact h
  | cons s rest ih =>
    intro m h
    show (addAll (setAdd m s) rest).Nodup
    exact ih (setAdd_nodup s h)

/-- Adding the same string any number of times, at least once, is adding it once. -/
theorem addAll_replicate (m : List GoString) (s : GoString) (n : Nat) :
    addAll m (List.replicate (n + 1) s) = setAdd m s := by
  induction n with
  | zero => rfl
  | succ n ih =>
    show addAll (setAdd m s) (List.replicate (n + 1) s) = _
    have h : ∀ m' : List GoString, s ∈ m' → addAll m' (List.replicate (n + 1) s) = m' := by
      intro m' hm'
      clear ih
      induction n with
      | zero => exact setAdd_of_mem hm'
      | succ k ihk =>
        show addAll (setAdd m' s) (List.replicate (k + 1) s) = _
        rw [setAdd_of_mem hm']
        exact ihk
    exact h _ (mem_setAdd.2 (Or.inr rfl))

/-! ## The second loop of the front ends -/

/-- What the second loop of `parseElf` leaves in the string set: the set stays without
repetition, and it holds what it held before and the strings `findStringsInSection`
returned for the sections scanned. -/
theorem scanElf_spec (ptrSize : Nat) (bo : ByteOrder) (ds : List (Uintptr × List Byte))
    (secs : List ElfSection) :
    ∀ (sm out : List GoString), scanElf ptrSize bo ds secs sm = .ok out →
      (sm.Nodup → out.Nodup) ∧
      ∀ s, s ∈ out ↔ s ∈ sm ∨ ∃ sec ∈ secs, sec.SType ≠ SHT_NOBITS ∧
        ∃ data strs, sec.Data = .ok data ∧
          findStringsInSection ptrSize bo data ds = .ok strs ∧ s ∈ strs := by
  induction secs with
  | nil =>
    intro sm out h
    have : sm = out := Except.ok.inj h
    subst this
    exact ⟨id, fun s => by simp⟩
  | cons sec rest ih =>
    intro sm out h
    rw [scanElf_cons] at h
    by_cases hn : sec.SType = SHT_NOBITS
    · rw [if_pos hn] at h
      obtain ⟨h1, h2⟩ := ih sm out h
      refine ⟨h1, fun s => ?_⟩
      rw [h2 s]
      constructor
      · rintro (hs | ⟨sec', hsec', hrest⟩)
        · exact Or.inl hs
        · exact Or.inr ⟨sec', List.mem_cons_of_mem _ hsec', hrest⟩
      · rintro (hs | ⟨sec', hsec', hty, hrest⟩)
        · exact Or.inl hs
        · rcases List.mem_cons.1 hsec' with rfl | hsec'
          · exact absurd hn hty
          · exact Or.inr ⟨sec', hsec', hty, hrest⟩
    · rw [if_neg hn] at h
      cases hd : sec.Data with
      | error e => rw [hd] at h; cases h
      | ok data =>
        rw [hd] at h
        simp only [] at h
        cases hf : findStringsInSection ptrSize bo data ds with
        | error e => rw [hf] at h; cases h
        | ok strs =>
          rw [hf] at h
          simp only [] at h
          obtain ⟨h1, h2⟩ := ih (addAll sm strs) out h
          refine ⟨fun hsm => h1 (addAll_nodup hsm), fun s => ?_⟩
          rw [h2 s, mem_addAll]
          constructor
          · rintro ((hs | hs) | ⟨sec', hsec', hrest⟩)
            · exact Or.inl hs
            · exact Or.inr ⟨sec, List.mem_cons_self _ _, hn, data, strs, hd, hf, hs⟩
            · exact Or.inr ⟨sec', List.mem_cons_of_mem _ hsec', hrest⟩
          · rintro (hs | ⟨sec', hsec', hty, data', strs', hd', hf', hs⟩)
            · exact Or.inl (Or.inl hs)
            · rcases List.mem_cons.1 hsec' with rfl | hsec'
              · rw [hd] at hd'
                have hdd : data = data' := Except.ok.inj hd'
                subst hdd
                rw [hf] at hf'
                have hss : strs = strs' := Except.ok.inj hf'
                subst hss
                exact Or.inl (Or.inr hs)
              · exact Or.inr ⟨sec', hsec', hty, data', strs', hd', hf', hs⟩

/-- A Mach-O section seen as an ELF section is not `SHT_NOBITS`. -/
theorem asElfSection_type (sec : MachoSection) : ¬ (asElfSection sec).SType = SHT_NOBITS := by
  show ¬ (1 : Nat) = 8
  decide

/-- The first loop of `parseMacho` is that of `parseElf` on sections with content. -/
theorem collectMacho_eq (secs : List MachoSection) :
    ∀ acc : List (Uintptr × List Byte),
      collectMacho secs acc = collectElf (secs.map asElfSection) acc := by
  induction secs with
  | nil => intro acc; rfl
  | cons sec rest ih =>
    intro acc
    rw [List.map_cons, collectElf_cons, if_neg (asElfSection_type sec)]
    show ((match sec.Data with
      | Except.error e => Except.error e
      | Except.ok data => collectMacho rest (mapSet acc sec.Addr data)) :
        Except Failure (List (Uintptr × List Byte))) =
      (match sec.Data with
      | Except.error e => Except.error e
      | Except.ok data => collectElf (rest.map asElfSection) (mapSet acc sec.Addr data))
    cases sec.Data with
    | error e => rfl
    | ok data => exact ih _

/-- The second loop of `parseMacho` is that of `parseElf` on sections with content. -/
theorem scanMacho_eq (ptrSize : Nat) (bo : ByteOrder) (ds : List (Uintptr × List Byte))
    (secs : List MachoSection) :
    ∀ sm : List GoString,
      scanMacho ptrSize bo ds secs sm = scanElf ptrSize bo ds (secs.map asElfSection) sm := by
  induction secs with
  | nil => intro sm; rfl
  | cons sec rest ih =>
    intro sm
    rw [List.map_cons, scanElf_cons, if_neg (asElfSection_type sec)]
    show ((match sec.Data with
      | Except.error e => Except.error e
      | Except.ok sectionData =>
        match findStringsInSection ptrSize bo sectionData ds with
        | Except.error e => Except.error e
        | Except.ok strs => scanMacho ptrSize bo ds rest (addAll sm strs)) :
        Except Failure (List GoString)) =
      (match sec.Data with
      | Except.error e => Except.error e
      | Except.ok sectionData =>
        match findStringsInSection ptrSize bo sectionData ds with
        | Except.error e => Except.error e
        | Except.ok strs => scanElf ptrSize bo ds (rest.map asElfSection) (addAll sm strs))
    cases sec.Data with
    | error e => rfl
    | ok data =>
      simp only []
      cases findStringsInSection ptrSize bo data ds with
      | error e => rfl
      | ok strs => exact ih _

/-- What `parseElf` returns: a list without repetition that holds exactly the strings
`findStringsInSection` returned for the sections that are not `SHT_NOBITS`. -/
theorem parseElf_spec {f : ElfFile} {out : List GoString} (h : parseElf f = .ok out) :
    out.Nodup ∧
    ∃ ds p, collectElf f.Sections [] = .ok ds ∧ ptrSizeForCpuElf f.Class = .ok p ∧
      ∀ s, s ∈ out ↔ ∃ sec ∈ f.Sections, sec.SType ≠ SHT_NOBITS ∧
        ∃ data strs, sec.Data = .ok data ∧
          findStringsInSection p f.Order data ds = .ok strs ∧ s ∈ strs := by
  unfold parseElf at h
  cases hc : collectElf f.Sections [] with
  | error e => rw [hc] at h; cases h
  | ok ds =>
    rw [hc] at h
    simp only [] at h
    cases hp : ptrSizeForCpuElf f.Class with
    | error e => rw [hp] at h; cases h
    | ok p =>
      rw [hp] at h
      simp only [] at h
      obtain ⟨h1, h2⟩ := scanElf_spec p f.Order ds f.Sections [] out h
      refine ⟨h1 List.nodup_nil, ds, p, rfl, rfl, fun s => ?_⟩
      rw [h2 s]
      simp

/-- What `parseMacho` returns: a list without repetition that holds exactly the strings
`findStringsInSection` returned for the sections. -/
theorem parseMacho_spec {f : MachoFile} {out : List GoString} (h : parseMacho f = .ok out) :
    out.Nodup ∧
    ∃ ds p, collectMacho f.Sections [] = .ok ds ∧ ptrSizeForCpuMacho f.Cpu = .ok p ∧
      ∀ s, s ∈ out ↔ ∃ sec ∈ f.Sections,
        ∃ data strs, sec.Data = .ok data ∧
          findStringsInSection p f.Order data ds = .ok strs ∧ s ∈ strs := by
  unfold parseMacho at h
  cases hc : collectMacho f.Sections [] with
  | error e => rw [hc] at h; cases h
  | ok ds =>
    rw [hc] at h
    simp only [] at h
    cases hp : ptrSizeForCpuMacho f.Cpu with
    | error e => rw [hp] at h; cases h
    | ok p =>
      rw [hp] at h
      simp only [] at h
      rw [scanMacho_eq] at h
      obtain ⟨h1, h2⟩ := scanElf_spec p f.Order ds (f.Sections.map asElfSection) [] out h
      refine ⟨h1 List.nodup_nil, ds, p, rfl, rfl, fun s => ?_⟩
      rw [h2 s]
      constructor
      · rintro (hs | ⟨sec, hsec, _, data, strs, hd, hf, hs⟩)
        · cases hs
        · obtain ⟨msec, hm, rfl⟩ := List.mem_map.1 hsec
          exact ⟨msec, hm, data, strs, hd, hf, hs⟩
      · rintro ⟨msec, hm, data, strs, hd, hf, hs⟩
        exact Or.inr ⟨asElfSection msec, List.mem_map_of_mem _ hm, asElfSection_type msec,
          data, strs, hd, hf, hs⟩

/-- The strings `main` prints are those its front end returned. -/
theorem main_ok_nodup {b : Binary} {out : List GoString} (h : main b = .ok out) :
    ∃ strs, strs.Nodup ∧ out = sortStrings strs := by
  cases b with
  | elf f =>
    obtain ⟨strs, hp, rfl⟩ := main_elf_ok.1 h
    exact ⟨strs, (parseElf_spec hp).1, rfl⟩
  | macho f =>
    obtain ⟨strs, hp, rfl⟩ := main_macho_ok.1 h
    exact ⟨strs, (parseMacho_spec hp).1, rfl⟩
  | unknown => cases h

/-! ## The iteration order does not show in the output -/

/-- Visiting the index in another order rearranges the strings of a candidate. -/
theorem resolved_perm (ptr length : Nat) {ds1 ds2 : List (Uintptr × List Byte)}
    (h : ds1.Perm ds2) : (resolved ptr length ds1).Perm (resolved ptr length ds2) := by
  rw [resolved_eq, resolved_eq]
  exact (h.filter _).map _

/-- Visiting the index in another order rearranges what a candidate adds. -/
theorem emitted_perm (ptr length : Nat) {ds1 ds2 : List (Uintptr × List Byte)}
    (h : ds1.Perm ds2) : (emitted ptr length ds1).Perm (emitted ptr length ds2) := by
  unfold emitted
  by_cases hf : length < MIN_LEN ∨ length > MAX_LEN ∨ ptr > 0xffffffffffff0000
  · rw [if_pos hf, if_pos hf]
  · rw [if_neg hf, if_neg hf]
    exact resolved_perm ptr length h

/-- The loop with orders stops, with the strings found so far, once the condition fails. -/
theorem scanFromIn_done (ptrSize : Nat) (bo : ByteOrder) (d : List Byte)
    (ds : List (Uintptr × List Byte)) (order : Nat → RangeOrder) (fuel i : Nat)
    (result : List GoString) (h : ¬ i + 2 * ptrSize < d.length) :
    scanFromIn ptrSize bo d ds order fuel i result = .ok result := by
  unfold scanFromIn
  rw [if_neg (fun hc => h ((loop_cond i d.length ptrSize).1 hc))]

/-- One iteration of the loop with orders at pointer width 8. -/
theorem scanFromIn_step (bo : ByteOrder) (d : List Byte) (ds : List (Uintptr × List Byte))
    (order : Nat → RangeOrder) (fuel i : Nat) (result : List GoString)
    (h : i + 16 < d.length) :
    scanFromIn 8 bo d ds order (fuel + 1) i result =
      scanFromIn 8 bo d ds order fuel (i + 8)
        (result ++ emitted (word bo d i) (word bo d (i + 8)) (order i ds)) := by
  rw [scanFromIn, if_pos ((loop_cond i d.length 8).2 (by omega))]
  have hw1 := Uint64_drop bo d (i := i) (by omega)
  have hw2 := Uint64_drop bo d (i := i + 8) (by omega)
  have hs1 : slice d i (i + 8) = .ok ((d.drop i).take 8) := by
    rw [slice_ok d (by omega) (by omega), show i + 8 - i = 8 by omega]
  have hs2 : slice d (i + 8) (i + 2 * 8) = .ok ((d.drop (i + 8)).take 8) := by
    rw [slice_ok d (by omega) (by omega), show i + 2 * 8 - (i + 8) = 8 by omega]
  have hu1 : bo.Uint64 ((d.drop i).take 8) = .ok (word bo d i) := by
    rw [Uint64_take bo _ 8 (le_refl 8), hw1.1]
  have hu2 : bo.Uint64 ((d.drop (i + 8)).take 8) = .ok (word bo d (i + 8)) := by
    rw [Uint64_take bo _ 8 (le_refl 8), hw2.1]
  simp only [hs1, hu1, hs2, hu2]
  unfold emitted
  by_cases hf : word bo d (i + 8) < MIN_LEN ∨ word bo d (i + 8) > MAX_LEN ∨
      word bo d i > 0xffffffffffff0000
  · rw [if_pos hf, if_pos hf, List.append_nil]
  · rw [if_neg hf, if_neg hf]
    have hl : word bo d (i + 8) ≤ 2048 := by
      unfold MAX_LEN at hf; omega
    have hp : word bo d i ≤ 0xffffffffffff0000 := by omega
    rw [rangeDataSections_eq hl hp]

/-- At pointer width 8 the loop with orders returns, whatever the orders are, the strings
found so far followed by a rearrangement of those the loop without orders adds. -/
theorem scanFromIn_perm (bo : ByteOrder) (d : List Byte) (ds : List (Uintptr × List Byte))
    (order : Nat → RangeOrder) (ho : ∀ i m, (order i m).Perm m) (fuel : Nat) :
    ∀ (i : Nat) (result : List GoString), (d.length - i - 9) / 8 ≤ fuel →
      ∃ r, scanFromIn 8 bo d ds order fuel i result = .ok (result ++ r) ∧
        r.Perm (scanned bo d ds ((d.length - i - 9) / 8) i) := by
  induction fuel with
  | zero =>
    intro i result hf
    have h0 : (d.length - i - 9) / 8 = 0 := by omega
    refine ⟨[], ?_, ?_⟩
    · rw [scanFromIn_done 8 bo d ds order 0 i result (by omega), List.append_nil]
    · rw [h0, scanned]
  | succ fuel ih =>
    intro i result hf
    by_cases h : i + 16 < d.length
    · have hk : (d.length - i - 9) / 8 = (d.length - (i + 8) - 9) / 8 + 1 := by omega
      obtain ⟨r, hr, hp⟩ := ih (i + 8)
        (result ++ emitted (word bo d i) (word bo d (i + 8)) (order i ds)) (by omega)
      refine ⟨emitted (word bo d i) (word bo d (i + 8)) (order i ds) ++ r, ?_, ?_⟩
      · rw [scanFromIn_step bo d ds order fuel i result h, hr, List.append_assoc]
      · rw [hk, scanned]
        exact (emitted_perm _ _ (ho i ds)).append hp
    · have h0 : (d.length - i - 9) / 8 = 0 := by omega
      refine ⟨[], ?_, ?_⟩
      · rw [scanFromIn_done 8 bo d ds order _ i result (by omega), List.append_nil]
      · rw [h0, scanned]

/-- At pointer width 8 `findStringsInSection` returns, whatever the orders are, a
rearrangement of the same strings. -/
theorem findStringsInSectionIn_eight (bo : ByteOrder) (d : List Byte)
    (ds : List (Uintptr × List Byte)) (order : Nat → RangeOrder)
    (ho : ∀ i m, (order i m).Perm m) :
    ∃ r1 r2, findStringsInSectionIn 8 bo d ds order = .ok r1 ∧
      findStringsInSection 8 bo d ds = .ok r2 ∧ r1.Perm r2 := by
  obtain ⟨r, hr, hp⟩ := scanFromIn_perm bo d ds order ho d.length 0 [] (by omega)
  refine ⟨r, _, ?_, findStringsInSection_eq bo d ds, hp⟩
  unfold findStringsInSectionIn
  rw [hr, List.nil_append]

/-- At pointer width 4 the orders play no part: the scan panics or finds nothing. -/
theorem findStringsInSectionIn_four (bo : ByteOrder) (d : List Byte)
    (ds : List (Uintptr × List Byte)) (order : Nat → RangeOrder) :
    findStringsInSectionIn 4 bo d ds order = findStringsInSection 4 bo d ds := by
  by_cases h : 8 < d.length
  · rw [findStringsInSection_four_panics bo d ds h]
    unfold findStringsInSectionIn
    obtain ⟨n, hn⟩ : ∃ n, d.length = n + 1 := ⟨d.length - 1, by omega⟩
    rw [hn, scanFromIn, if_pos ((loop_cond 0 d.length 4).2 (by omega))]
    have hs : slice d 0 (0 + 4) = .ok ((d.drop 0).take 4) := by
      rw [slice_ok d (by omega) (by omega)]
    have hu : bo.Uint64 ((d.drop 0).take 4) = .error .outOfRange :=
      Uint64_short bo (by rw [List.length_take]; omega)
    simp only [hs, hu]
  · rw [findStringsInSection_four_short bo d ds (by omega)]
    unfold findStringsInSectionIn
    exact scanFromIn_done 4 bo d ds order _ 0 [] (by omega)

/-- At the two widths of the program the scan with orders and the scan without fail alike
or return rearrangements of the same strings. -/
theorem findStringsInSectionIn_agree (p : Nat) (hp : p = 4 ∨ p = 8) (bo : ByteOrder)
    (d : List Byte) (ds : List (Uintptr × List Byte)) (order : Nat → RangeOrder)
    (ho : ∀ i m, (order i m).Perm m) :
    (∃ e, findStringsInSectionIn p bo d ds order = .error e ∧
      findStringsInSection p bo d ds = .error e) ∨
    (∃ r1 r2, findStringsInSectionIn p bo d ds order = .ok r1 ∧
      findStringsInSection p bo d ds = .ok r2 ∧ r1.Perm r2) := by
  rcases hp with rfl | rfl
  · rw [findStringsInSectionIn_four]
    cases hf : findStringsInSection 4 bo d ds with
    | error e => exact Or.inl ⟨e, rfl, rfl⟩
    | ok r => exact Or.inr ⟨r, r, rfl, rfl, List.Perm.refl r⟩
  · exact Or.inr (findStringsInSectionIn_eight bo d ds order ho)

/-- Adding rearranged results to rearranged sets gives rearranged sets. -/
theorem addAll_perm {m1 m2 strs1 strs2 : List GoString} (hn : m1.Nodup) (hm : m1.Perm m2)
    (hs : strs1.Perm strs2) : (addAll m1 strs1).Perm (addAll m2 strs2) := by
  rw [List.perm_ext_iff_of_nodup (addAll_nodup hn) (addAll_nodup (hm.nodup_iff.1 hn))]
  intro x
  rw [mem_addAll, mem_addAll, hm.mem_iff, hs.mem_iff]

/-- One step of the second loop of `parseElf` with orders. -/
theorem scanElfIn_cons (ptrSize : Nat) (bo : ByteOrder) (ds : List (Uintptr × List Byte))
    (order : Nat → Nat → RangeOrder) (k : Nat) (sec : ElfSection) (rest : List ElfSection)
    (stringMap : List GoString) :
    scanElfIn ptrSize bo ds order k (sec :: rest) stringMap =
      if sec.SType = SHT_NOBITS then scanElfIn ptrSize bo ds order (k + 1) rest stringMap
      else
        match sec.Data with
        | .error e => .error e
        | .ok sectionData =>
          match findStringsInSectionIn ptrSize bo sectionData ds (order k) with
          | .error e => .error e
          | .ok strs => scanElfIn ptrSize bo ds order (k + 1) rest (addAll stringMap strs) :=
  rfl

/-- The second loop of `parseElf` with orders and without: both fail alike, or both
return the string set, the same strings in some order. -/
theorem scanElfIn_agree (p : Nat) (hp : p = 4 ∨ p = 8) (bo : ByteOrder)
    (ds : List (Uintptr × List Byte)) (order : Nat → Nat → RangeOrder)
    (ho : ∀ k i m, (order k i m).Perm m) (secs : List ElfSection) :
    ∀ (k : Nat) (sm1 sm2 : List GoString), sm1.Nodup → sm1.Perm sm2 →
      (∃ e, scanElfIn p bo ds order k secs sm1 = .error e ∧
        scanElf p bo ds secs sm2 = .error e) ∨
      (∃ r1 r2, scanElfIn p bo ds order k secs sm1 = .ok r1 ∧
        scanElf p bo ds secs sm2 = .ok r2 ∧ r1.Perm r2) := by
  induction secs with
  | nil =>
    intro k sm1 sm2 _ hm
    exact Or.inr ⟨sm1, sm2, rfl, rfl, hm⟩
  | cons sec rest ih =>
    intro k sm1 sm2 hn hm
    rw [scanElfIn_cons, scanElf_cons]
    by_cases hty : sec.SType = SHT_NOBITS
    · rw [if_pos hty, if_pos hty]
      exact ih (k + 1) sm1 sm2 hn hm
    · rw [if_neg hty, if_neg hty]
      cases sec.Data with
      | error e => exact Or.inl ⟨e, rfl, rfl⟩
      | ok data =>
        simp only []
        rcases findStringsInSectionIn_agree p hp bo data ds (order k) (ho k) with
          ⟨e, h1, h2⟩ | ⟨r1, r2, h1, h2, hr⟩
        · rw [h1, h2]
          exact Or.inl ⟨e, rfl, rfl⟩
        · rw [h1, h2]
          exact ih (k + 1) (addAll sm1 r1) (addAll sm2 r2) (addAll_nodup hn)
            (addAll_perm hn hm hr)

/-- The second loop of `parseMacho` with orders is that of `parseElf` with orders on
sections with content. -/
theorem scanMachoIn_eq (ptrSize : Nat) (bo : ByteOrder) (ds : List (Uintptr × List Byte))
    (order : Nat → Nat → RangeOrder) (secs : List MachoSection) :
    ∀ (k : Nat) (sm : List GoString),
      scanMachoIn ptrSize bo ds order k secs sm
        = scanElfIn ptrSize bo ds order k (secs.map asElfSection) sm := by
  induction secs with
  | nil => intro k sm; rfl
  | cons sec rest ih =>
    intro k sm
    rw [List.map_cons, scanElfIn_cons, if_neg (asElfSection_type sec)]
    show ((match sec.Data with
      | Except.error e => Except.error e
      | Except.ok sectionData =>
        match findStringsInSectionIn ptrSize bo sectionData ds (order k) with
        | Except.error e => Except.error e
        | Except.ok strs => scanMachoIn ptrSize bo ds order (k + 1) rest (addAll sm strs)) :
        Except Failure (List GoString)) =
      (match sec.Data with
      | Except.error e => Except.error e
      | Except.ok sectionData =>
        match findStringsInSectionIn ptrSize bo sectionData ds (order k) with
        | Except.error e => Except.error e
        | Except.ok strs =>
          scanElfIn ptrSize bo ds order (k + 1) (rest.map asElfSection) (addAll sm strs))
    cases sec.Data with
    | error e => rfl
    | ok data =>
      simp only []
      cases findStringsInSectionIn ptrSize bo data ds (order k) with
      | error e => rfl
      | ok strs => exact ih _ _

/-- A width returned by `ptrSizeForCpuElf` is 4 or 8. -/
theorem ptrSizeForCpuElf_width {cls w : Nat} (h : ptrSizeForCpuElf cls = .ok w) :
    w = 4 ∨ w = 8 := by
  unfold ptrSizeForCpuElf at h
  split at h
  · left; exact (Except.ok.inj h).symm
  · split at h
    · right; exact (Except.ok.inj h).symm
    · cases h

/-- A width returned by `ptrSizeForCpuMacho` is 4 or 8. -/
theorem ptrSizeForCpuMacho_width {cpu w : Nat} (h : ptrSizeForCpuMacho cpu = .ok w) :
    w = 4 ∨ w = 8 := by
  unfold ptrSizeForCpuMacho at h
  split at h
  · left; exact (Except.ok.inj h).symm
  · split at h
    · right; exact (Except.ok.inj h).symm
    · split at h
      · left; exact (Except.ok.inj h).symm
      · split at h
        · right; exact (Except.ok.inj h).symm
        · cases h

/-- Whatever the orders are, `main` on an ELF file prints the same lines or fails the same
way. -/
theorem mainIn_elf (f : ElfFile) (order : Nat → Nat → RangeOrder)
    (keys : List GoString → List GoString) (ho : ∀ k i m, (order k i m).Perm m)
    (hk : ∀ m, (keys m).Perm m) : mainIn order keys (.elf f) = main (.elf f) := by
  show (match parseElfIn f order keys with
    | Except.error e => Except.error e
    | Except.ok strs => Except.ok (sortStrings strs)) =
    (match parseElf f with
    | Except.error e => Except.error e
    | Except.ok strs => Except.ok (sortStrings strs))
  unfold parseElfIn parseElf
  cases collectElf f.Sections [] with
  | error e => rfl
  | ok ds =>
    simp only []
    cases hw : ptrSizeForCpuElf f.Class with
    | error e => rfl
    | ok p =>
      simp only []
      rcases scanElfIn_agree p (ptrSizeForCpuElf_width hw) f.Order ds order ho f.Sections 0
        [] [] List.nodup_nil (List.Perm.refl _) with ⟨e, h1, h2⟩ | ⟨r1, r2, h1, h2, hr⟩
      · rw [h1, h2]
      · rw [h1, h2]
        simp only []
        rw [sortStrings_eq_of_perm ((hk r1).trans hr)]

/-- Whatever the orders are, `main` on a Mach-O file prints the same lines or fails the
same way. -/
theorem mainIn_macho (f : MachoFile) (order : Nat → Nat → RangeOrder)
    (keys : List GoString → List GoString) (ho : ∀ k i m, (order k i m).Perm m)
    (hk : ∀ m, (keys m).Perm m) : mainIn order keys (.macho f) = main (.macho f) := by
  show (match parseMachoIn f order keys with
    | Except.error e => Except.error e
    | Except.ok strs => Except.ok (sortStrings strs)) =
    (match parseMacho f with
    | Except.error e => Except.error e
    | Except.ok strs => Except.ok (sortStrings strs))
  unfold parseMachoIn parseMacho
  cases collectMacho f.Sections [] with
  | error e => rfl
  | ok ds =>
    simp only []
    cases hw : ptrSizeForCpuMacho f.Cpu with
    | error e => rfl
    | ok p =>
      simp only []
      rw [scanMachoIn_eq, scanMacho_eq]
      rcases scanElfIn_agree p (ptrSizeForCpuMacho_width hw) f.Order ds order ho
        (f.Sections.map asElfSection) 0 [] [] List.nodup_nil (List.Perm.refl _) with
        ⟨e, h1, h2⟩ | ⟨r1, r2, h1, h2, hr⟩
      · rw [h1, h2]
      · rw [h1, h2]
        simp only []
        rw [sortStrings_eq_of_perm ((hk r1).trans hr)]

/-- Whatever the orders are, `main` prints the same lines or fails the same way. -/
theorem mainIn_eq (b : Binary) (order : Nat → Nat → RangeOrder)
    (keys : List GoString → List GoString) (ho : ∀ k i m, (order k i m).Perm m)
    (hk : ∀ m, (keys m).Perm m) : mainIn order keys b = main b := by
  cases b with
  | elf f => exact mainIn_elf f order keys ho hk
  | macho f => exact mainIn_macho f order keys ho hk
  | unknown => rfl

/-- With every order that of the association list the functions with orders are the
functions without. -/
theorem scanFromIn_id (ptrSize : Nat) (bo : ByteOrder) (d : List Byte)
    (ds : List (Uintptr × List Byte)) (fuel : Nat) :
    ∀ (i : Nat) (result : List GoString),
      scanFromIn ptrSize bo d ds (fun _ m => m) fuel i result
        = scanFrom ptrSize bo d ds fuel i result := by
  induction fuel with
  | zero => intro i result; rfl
  | succ fuel ih =>
    intro i result
    rw [scanFromIn, scanFrom]
    simp only [ih]

/-! # The claims -/

/-- C1. The scenario of the specification, run through the whole program at pointer width 8:
section A at `0x2000` holds `"HELLO"` and padding, section B at `0x3000` holds exactly the
little-endian word pair `(0x2000, 5)`. The program prints nothing: the loop bound
`i < len(sectionData)-2*ptrSize` is `0 < 0` for the 16 bytes of B, so the pair is never read. -/
theorem hello_scenario_output : main (.elf (helloFile helloSectionB)) = .ok [] := by
  decide

/-- The scenario of C1 with one more byte at the end of section B prints `"HELLO"`. -/
theorem hello_scenario_padded : main (.elf (helloFile (helloSectionB ++ [0]))) = .ok [hello] := by
  decide

/-- C2. The last aligned offset that still holds a full word pair is not visited: in the
16-byte section B the pair at offset 0 fits (`0 + 2 * 8 ≤ 16`), passes both filters and
points at the printable bytes `"HELLO"` of an indexed section, and the result is empty. -/
theorem last_pair_not_scanned :
    0 + 2 * 8 ≤ helloSectionB.length ∧
    word .LittleEndian helloSectionB 0 = 0x2000 ∧
    word .LittleEndian helloSectionB 8 = 5 ∧
    bytesAt 0x2000 5 (addr2000, helloSectionA) = hello ∧
    isPrintable hello = true ∧
    findStringsInSection 8 .LittleEndian helloSectionB [(addr2000, helloSectionA)] = .ok [] := by
  decide

/-- Scan coverage as the code has it: at pointer width 8 every offset `o`, a multiple of 8,
with `o + 16 < len(d)` is tried: if the pair read there passes the filter and an indexed
section holds the range with printable bytes, these bytes are in the result. -/
theorem scan_coverage (bo : ByteOrder) (d : List Byte) (ds : List (Uintptr × List Byte))
    (j : Nat) (e : Uintptr × List Byte) (ho : 8 * j + 16 < d.length)
    (hl : 4 ≤ word bo d (8 * j + 8) ∧ word bo d (8 * j + 8) ≤ 2048)
    (hp : word bo d (8 * j) ≤ 0xffffffffffff0000) (he : e ∈ ds)
    (hb : e.1.val ≤ word bo d (8 * j))
    (ht : word bo d (8 * j) + word bo d (8 * j + 8) ≤ e.1.val + e.2.length)
    (hw : e.1.val + e.2.length < 2 ^ 64)
    (hpr : isPrintable (bytesAt (word bo d (8 * j)) (word bo d (8 * j + 8)) e) = true) :
    ∃ r, findStringsInSection 8 bo d ds = .ok r ∧
      bytesAt (word bo d (8 * j)) (word bo d (8 * j + 8)) e ∈ r := by
  refine ⟨_, findStringsInSection_eq bo d ds, ?_⟩
  rw [mem_scanned_visits]
  exact ⟨j, ho, ⟨hl.1, hl.2, hp⟩, e, he, (hits_iff_of_lt hw).2 ⟨hb, ht⟩, hpr, rfl⟩

/-- The premises of `scan_coverage` hold at offset 0 of section B of the scenario followed by
one byte: `"HELLO"` is in the result. -/
theorem scan_coverage_witness :
    ∃ r, findStringsInSection 8 .LittleEndian (helloSectionB ++ [0])
        [(addr2000, helloSectionA)] = .ok r ∧ hello ∈ r :=
  scan_coverage .LittleEndian (helloSectionB ++ [0]) [(addr2000, helloSectionA)] 0
    (addr2000, helloSectionA) (by decide) (by decide) (by decide) (by decide) (by decide)
    (by decide) (by decide) (by decide)

/-- C3. The validity filter. A candidate `(ptr, length)` of 64-bit words, alone in a section,
contributes nothing whatever the address index is if and only if `length < 4` or
`length > 2048` or `ptr > 0xFFFFFFFFFFFF0000`, compared as unsigned numbers; a candidate
outside these three cases is resolved (against a section of `length` letters that starts
at `ptr` it yields that section). -/
theorem validity_filter (bo : ByteOrder) (ptr length : Nat) (hp : ptr < 2 ^ 64)
    (hl : length < 2 ^ 64) :
    ((∀ ds, findStringsInSection 8 bo (descriptor bo ptr length) ds = .ok []) ↔
      (length < 4 ∨ length > 2048 ∨ ptr > 0xffffffffffff0000)) ∧
    (¬ (length < 4 ∨ length > 2048 ∨ ptr > 0xffffffffffff0000) →
      findStringsInSection 8 bo (descriptor bo ptr length)
        [(⟨ptr, hp⟩, List.replicate length 0x41)] = .ok [List.replicate length 0x41]) := by
  have key : ¬ (length < 4 ∨ length > 2048 ∨ ptr > 0xffffffffffff0000) →
      findStringsInSection 8 bo (descriptor bo ptr length)
        [(⟨ptr, hp⟩, List.replicate length 0x41)] = .ok [List.replicate length 0x41] := by
    intro h
    rw [findStringsInSection_descriptor, Nat.mod_eq_of_lt hp, Nat.mod_eq_of_lt hl,
      emitted_self hp h]
  refine ⟨⟨fun hall => ?_, fun h ds => ?_⟩, key⟩
  · by_contra h
    have h1 := key h
    rw [hall] at h1
    exact List.cons_ne_nil _ _ (Except.ok.inj h1).symm
  · rw [findStringsInSection_descriptor, Nat.mod_eq_of_lt hp, Nat.mod_eq_of_lt hl,
      emitted_rejected ds h]

/-- The filter of C3 at its boundaries: lengths 4 and 2048 and the pointer
`0xFFFFFFFFFFFF0000 - 1` are accepted; lengths 3 and 2049, the pointer
`0xFFFFFFFFFFFF0001` and a length word with its top bit set are rejected. -/
theorem validity_filter_witness :
    findStringsInSection 8 .LittleEndian (descriptor .LittleEndian 0xfffffffffffeffff 4)
      [(⟨0xfffffffffffeffff, by decide⟩, List.replicate 4 0x41)]
        = .ok [List.replicate 4 0x41] ∧
    findStringsInSection 8 .BigEndian (descriptor .BigEndian 0x2000 2048)
      [(⟨0x2000, by decide⟩, List.replicate 2048 0x41)] = .ok [List.replicate 2048 0x41] ∧
    (∀ ds, findStringsInSection 8 .LittleEndian (descriptor .LittleEndian 0x2000 3) ds
      = .ok []) ∧
    (∀ ds, findStringsInSection 8 .LittleEndian (descriptor .LittleEndian 0x2000 2049) ds
      = .ok []) ∧
    (∀ ds, findStringsInSection 8 .LittleEndian
      (descriptor .LittleEndian 0xffffffffffff0001 4) ds = .ok []) ∧
    (∀ ds, findStringsInSection 8 .LittleEndian
      (descriptor .LittleEndian 0x2000 (2 ^ 63)) ds = .ok []) :=
  ⟨(validity_filter .LittleEndian 0xfffffffffffeffff 4 (by decide) (by decide)).2 (by decide),
   (validity_filter .BigEndian 0x2000 2048 (by decide) (by decide)).2 (by decide),
   (validity_filter .LittleEndian 0x2000 3 (by decide) (by decide)).1.2 (by decide),
   (validity_filter .LittleEndian 0x2000 2049 (by decide) (by decide)).1.2 (by decide),
   (validity_filter .LittleEndian 0xffffffffffff0001 4 (by decide) (by decide)).1.2 (by decide),
   (validity_filter .LittleEndian 0x2000 (2 ^ 63) (by decide) (by decide)).1.2 (by decide)⟩

/-- C4. Length bounds. At pointer width 8, for every section, byte order and address index,
`findStringsInSection` returns, and every string it returns is 4 to 2048 bytes long; a
candidate of length 3 or of length 2049 yields nothing, whatever its pointer and the index;
lengths 4 and 2048 are reached. -/
theorem length_bounds :
    (∀ (bo : ByteOrder) (d : List Byte) (ds : List (Uintptr × List Byte)),
      ∃ r, findStringsInSection 8 bo d ds = .ok r ∧
        ∀ s ∈ r, 4 ≤ s.length ∧ s.length ≤ 2048) ∧
    (∀ (bo : ByteOrder) (ptr : Nat) (ds : List (Uintptr × List Byte)),
      findStringsInSection 8 bo (descriptor bo ptr 3) ds = .ok []) ∧
    (∀ (bo : ByteOrder) (ptr : Nat) (ds : List (Uintptr × List Byte)),
      findStringsInSection 8 bo (descriptor bo ptr 2049) ds = .ok []) ∧
    (∀ bo : ByteOrder, findStringsInSection 8 bo (descriptor bo 0x1000 4)
      [(addr1000, List.replicate 4 0x41)] = .ok [List.replicate 4 0x41]) ∧
    (∀ bo : ByteOrder, findStringsInSection 8 bo (descriptor bo 0x1000 2048)
      [(addr1000, List.replicate 2048 0x41)] = .ok [List.replicate 2048 0x41]) := by
  refine ⟨fun bo d ds => ⟨_, findStringsInSection_eq bo d ds, fun s hs => ?_⟩,
    fun bo ptr ds => ?_, fun bo ptr ds => ?_, fun bo => ?_, fun bo => ?_⟩
  · obtain ⟨j, _, ⟨h4, h2048, hp⟩, e, _, hh, _, rfl⟩ := mem_scanned_visits.1 hs
    rw [bytesAt_length hp h2048 hh]
    exact ⟨h4, h2048⟩
  · rw [findStringsInSection_descriptor,
      emitted_rejected ds (Or.inl (show 3 % 2 ^ 64 < 4 by decide))]
  · rw [findStringsInSection_descriptor,
      emitted_rejected ds (Or.inr (Or.inl (show 2049 % 2 ^ 64 > 2048 by decide)))]
  · rw [findStringsInSection_descriptor]
    exact congrArg Except.ok (@emitted_self 0x1000 4 (by decide) (by decide))
  · rw [findStringsInSection_descriptor]
    exact congrArg Except.ok
      (@emitted_self 0x1000 2048 (by decide) (by decide))

/-- C5, the claim as stated fails: the candidate `(0xFFFFFFFFFFFF0000, 4)` is not rejected.
With a section `"ABCD"` at base `0xFFFFFFFFFFFF0000` in the index it yields `"ABCD"`. -/
theorem sentinel_pointer_accepted :
    findStringsInSection 8 .LittleEndian (descriptor .LittleEndian 0xffffffffffff0000 4)
      [(addrTop, abcd)] = .ok [abcd] := by
  decide

/-- C5 as amended. A candidate whose pointer word is greater than `0xFFFFFFFFFFFF0000`
contributes no string, for every byte order, every length and every address index;
the pointer `0xFFFFFFFFFFFF0000` itself passes the pointer test: with a length from 4 to
2048 it resolves against a section that starts there. -/
theorem sentinel_boundary (bo : ByteOrder) (ptr length : Nat)
    (ds : List (Uintptr × List Byte)) (h : 0xffffffffffff0000 < ptr) (hp : ptr < 2 ^ 64) :
    findStringsInSection 8 bo (descriptor bo ptr length) ds = .ok [] ∧
    (4 ≤ length → length ≤ 2048 →
      findStringsInSection 8 bo (descriptor bo 0xffffffffffff0000 length)
        [(addrTop, List.replicate length 0x41)] = .ok [List.replicate length 0x41]) := by
  constructor
  · rw [findStringsInSection_descriptor, Nat.mod_eq_of_lt hp,
      emitted_rejected ds (Or.inr (Or.inr h))]
  · intro h4 h2048
    rw [findStringsInSection_descriptor, Nat.mod_eq_of_lt (show length < 2 ^ 64 by omega)]
    exact congrArg Except.ok
      (@emitted_self 0xffffffffffff0000 length (by decide) (by omega))

/-- The amended C5 at the pointer `0xFFFFFFFFFFFF0001`, with a printable section at that
very address in the index: nothing is found. -/
theorem sentinel_boundary_witness :
    (0xffffffffffff0000 < 0xffffffffffff0001 ∧ 0xffffffffffff0001 < 2 ^ 64) ∧
    findStringsInSection 8 .LittleEndian (descriptor .LittleEndian 0xffffffffffff0001 4)
      [(⟨0xffffffffffff0001, by decide⟩, abcd)] = .ok [] :=
  ⟨by decide,
   (sentinel_boundary .LittleEndian 0xffffffffffff0001 4
      [(⟨0xffffffffffff0001, by decide⟩, abcd)] (by decide) (by decide)).1⟩

/-- C6. The printability filter. `isPrintable` holds exactly for the byte strings whose
bytes all lie in `32..126`; at pointer width 8 `findStringsInSection` returns, for every
input, only strings that pass `isPrintable`, so all their bytes lie in `32..126`; a
resolved slice with a tab in it is dropped and the resolved slice `"ABCD"` is returned.
At pointer width 4, the only other width the program uses, no string is returned at all. -/
theorem printability_filter :
    (∀ data : List Byte, isPrintable data = true ↔ ∀ b ∈ data, 32 ≤ b.val ∧ b.val ≤ 126) ∧
    (∀ (bo : ByteOrder) (d : List Byte) (ds : List (Uintptr × List Byte)),
      ∃ r, findStringsInSection 8 bo d ds = .ok r ∧
        ∀ s ∈ r, isPrintable s = true ∧ ∀ b ∈ s, 32 ≤ b.val ∧ b.val ≤ 126) ∧
    isPrintable [0x41, 0x42, 0x09] = false ∧
    isPrintable [31] = false ∧ isPrintable [127] = false ∧ isPrintable [32, 126] = true ∧
    findStringsInSection 8 .LittleEndian (descriptor .LittleEndian 0x1000 4)
      [(addr1000, [0x41, 0x42, 0x09, 0x43])] = .ok [] ∧
    findStringsInSection 8 .LittleEndian (descriptor .LittleEndian 0x1000 4)
      [(addr1000, abcd)] = .ok [abcd] ∧
    (∀ (bo : ByteOrder) (d : List Byte) (ds : List (Uintptr × List Byte)) (r : List GoString),
      findStringsInSection 4 bo d ds = .ok r → r = []) := by
  refine ⟨isPrintable_iff, fun bo d ds => ⟨_, findStringsInSection_eq bo d ds, fun s hs => ?_⟩,
    by decide, by decide, by decide, by decide, by decide, by decide, fun bo d ds r hr => ?_⟩
  · obtain ⟨j, _, _, e, _, _, hpr, rfl⟩ := mem_scanned_visits.1 hs
    exact ⟨hpr, (isPrintable_iff _).1 hpr⟩
  · by_cases h : 8 < d.length
    · rw [findStringsInSection_four_panics bo d ds h] at hr
      cases hr
    · rw [findStringsInSection_four_short bo d ds (by omega)] at hr
      exact (Except.ok.inj hr).symm

/-- Resolution against a one-section index, for a section that ends below `2 ^ 64`: a
candidate that passes the filter resolves to the bytes `data[ptr-b : ptr-b+length]` exactly
when `b ≤ ptr` and `ptr + length ≤ b + len(data)`; these bytes are returned when printable. -/
theorem resolution_boundary (bo : ByteOrder) (ptr length : Nat) (b : Uintptr)
    (data : List Byte) (h4 : 4 ≤ length) (h2048 : length ≤ 2048)
    (hp : ptr ≤ 0xffffffffffff0000) (hw : b.val + data.length < 2 ^ 64) :
    findStringsInSection 8 bo (descriptor bo ptr length) [(b, data)] =
      .ok (if (b.val ≤ ptr ∧ ptr + length ≤ b.val + data.length) ∧
              isPrintable ((data.drop (ptr - b.val)).take length) = true
           then [(data.drop (ptr - b.val)).take length] else []) := by
  rw [findStringsInSection_descriptor, Nat.mod_eq_of_lt (show ptr < 2 ^ 64 by omega),
    Nat.mod_eq_of_lt (show length < 2 ^ 64 by omega)]
  unfold emitted MIN_LEN MAX_LEN
  rw [if_neg (by omega), resolved, resolved]
  have hiff := @hits_iff_of_lt ptr length (b, data) hw
  by_cases hc : (b.val ≤ ptr ∧ ptr + length ≤ b.val + data.length) ∧
      isPrintable ((data.drop (ptr - b.val)).take length) = true
  · rw [if_pos hc, if_pos ⟨hiff.2 hc.1, hc.2⟩]
    rfl
  · rw [if_neg hc, if_neg (fun hh => hc ⟨hiff.1 hh.1, hh.2⟩)]

/-- The boundary of `resolution_boundary` at base `0x1000` with 16 bytes: a candidate of
length 16 fits exactly and is returned whole, a candidate of length 17 yields nothing. -/
theorem resolution_boundary_witness :
    findStringsInSection 8 .LittleEndian (descriptor .LittleEndian 0x1000 16)
      [(addr1000, List.replicate 16 0x41)] = .ok [List.replicate 16 0x41] ∧
    findStringsInSection 8 .LittleEndian (descriptor .LittleEndian 0x1000 17)
      [(addr1000, List.replicate 16 0x41)] = .ok [] :=
  ⟨(resolution_boundary .LittleEndian 0x1000 16 addr1000 (List.replicate 16 0x41)
      (by decide) (by decide) (by decide) (by decide)).trans (by decide),
   (resolution_boundary .LittleEndian 0x1000 17 addr1000 (List.replicate 16 0x41)
      (by decide) (by decide) (by decide) (by decide)).trans (by decide)⟩

/-- A section that reaches the end of the 64-bit address space is never a resolution target:
a candidate alone in a section finds nothing in it. -/
theorem wrapped_section_never_resolves (bo : ByteOrder) (ptr length : Nat) (b : Uintptr)
    (data : List Byte) (hp : ptr < 2 ^ 64) (hl : length < 2 ^ 64)
    (hn : data.length < 2 ^ 64) (hw : 2 ^ 64 ≤ b.val + data.length) :
    findStringsInSection 8 bo (descriptor bo ptr length) [(b, data)] = .ok [] := by
  rw [findStringsInSection_descriptor, Nat.mod_eq_of_lt hp, Nat.mod_eq_of_lt hl]
  unfold emitted MIN_LEN MAX_LEN
  by_cases hf : length < 4 ∨ length > 2048 ∨ ptr > 0xffffffffffff0000
  · rw [if_pos hf]
  · rw [if_neg hf, resolved, resolved]
    have hnh : ¬ hits ptr length (b, data) :=
      not_hits_of_wrap (by omega) (by omega) (by
        show 2 ^ 64 ≤ b.val + data.length % 2 ^ 64
        rw [Nat.mod_eq_of_lt hn]; exact hw)
    rw [if_neg (fun hh => hnh hh.1)]

/-- C7. The range test is not containment for a section that ends at `2 ^ 64`: with the one
section of `0x10000` printable bytes at base `b = 0xFFFFFFFFFFFF0000` in the index, the
candidate `(b, 16)` passes the filter and satisfies `b ≤ ptr` and `ptr + 16 ≤ b + n`, and
yet it does not resolve: the sum `b + n` wraps to 0 in `uintptr`. -/
theorem boundary_fails_at_top :
    addrTop.val ≤ 0xffffffffffff0000 ∧
    0xffffffffffff0000 + 16 ≤ addrTop.val + topSection.length ∧
    isPrintable (bytesAt 0xffffffffffff0000 16 (addrTop, topSection)) = true ∧
    uadd addrTop.val (uintptr topSection.length) = 0 ∧
    findStringsInSection 8 .LittleEndian (descriptor .LittleEndian 0xffffffffffff0000 16)
      [(addrTop, topSection)] = .ok [] := by
  have hlen : topSection.length = 0x10000 := List.length_replicate _ _
  refine ⟨by decide, ?_, ?_, ?_, ?_⟩
  · rw [hlen]; decide
  · have hb : bytesAt 0xffffffffffff0000 16 (addrTop, topSection)
        = List.replicate 16 (0x41 : Byte) := by
      show List.take 16 (List.drop (0xffffffffffff0000 - 0xffffffffffff0000)
        (List.replicate 0x10000 (0x41 : Byte))) = _
      rw [Nat.sub_self, List.drop_zero, List.take_replicate]
      rfl
    rw [hb]; decide
  · rw [hlen]; decide
  · exact wrapped_section_never_resolves .LittleEndian 0xffffffffffff0000 16 addrTop topSection
      (by decide) (by decide) (by rw [hlen]; decide) (by rw [hlen]; decide)

/-- C8. Two sections with the same base address: the second assignment
`dataSections[uintptr(section.Addr)] = data` overwrites the first, so the index built by
`parseElf` holds `"WXYZ"` at `0x1000` and no longer `"ABCD"`, and the candidate `(0x1000, 4)`
resolves once, not once per section: the program prints `"WXYZ"` only. -/
theorem shared_base_loses_section :
    collectElf sharedBaseFile.Sections []
      = .ok [(addr1000, wxyz), (addr3000, descriptor .LittleEndian 0x1000 4)] ∧
    parseElf sharedBaseFile = .ok [wxyz] ∧
    main (.elf sharedBaseFile) = .ok [wxyz] ∧
    collectMacho sharedBaseMacho.Sections []
      = .ok [(addr1000, wxyz), (addr3000, descriptor .LittleEndian 0x1000 4)] ∧
    main (.macho sharedBaseMacho) = .ok [wxyz] := by
  decide

/-- Multi-map resolution as the code has it. For sections with content and pairwise
distinct base addresses the index of `parseElf` holds every section, and a candidate that
passes the filter is resolved once for each entry of the index, in order, whose range test
succeeds and whose bytes are printable; for an entry that ends below `2 ^ 64` the range
test is containment of `[ptr, ptr + length)` in `[base, base + len)`. -/
theorem multi_resolution_distinct (entries : List (Uintptr × List Byte))
    (hd : (entries.map Prod.fst).Nodup) (bo : ByteOrder) (ptr length : Nat)
    (h4 : 4 ≤ length) (h2048 : length ≤ 2048) (hp : ptr ≤ 0xffffffffffff0000) :
    collectElf (entries.map progbits) [] = .ok entries ∧
    findStringsInSection 8 bo (descriptor bo ptr length) entries =
      .ok ((entries.filter (fun e => decide (hits ptr length e ∧
        isPrintable (bytesAt ptr length e) = true))).map (bytesAt ptr length)) ∧
    ∀ e ∈ entries, e.1.val + e.2.length < 2 ^ 64 →
      (hits ptr length e ↔ e.1.val ≤ ptr ∧ ptr + length ≤ e.1.val + e.2.length) := by
  refine ⟨?_, ?_, fun e _ hw => hits_iff_of_lt hw⟩
  · have := collectElf_distinct entries [] (by simpa using hd)
    simpa using this
  · rw [findStringsInSection_descriptor, Nat.mod_eq_of_lt (show ptr < 2 ^ 64 by omega),
      Nat.mod_eq_of_lt (show length < 2 ^ 64 by omega)]
    unfold emitted MIN_LEN MAX_LEN
    rw [if_neg (by omega), resolved_eq]

/-- Two overlapping sections with distinct bases, `"ABCD"` at `0x1000` and `"WXYZ"` followed
by `"ABCD"` at `0x0FFC`: the candidate `(0x1000, 4)` resolves against both. -/
theorem multi_resolution_distinct_witness :
    findStringsInSection 8 .LittleEndian (descriptor .LittleEndian 0x1000 4)
      [(addr1000, abcd), (⟨0xffc, by decide⟩, wxyz ++ abcd)] = .ok [abcd, abcd] :=
  (multi_resolution_distinct [(addr1000, abcd), (⟨0xffc, by decide⟩, wxyz ++ abcd)]
    (by decide) .LittleEndian 0x1000 4 (by decide) (by decide) (by decide)).2.1.trans
    (by decide)

/-- C9. The scenario at pointer width 4. When the loop reaches the pair (one byte follows
it in section B) the program panics: `byteOrder.Uint64` is called on the four-byte slice
`sectionData[i : i+ptrSize]`. When section B is exactly the 8-byte pair the loop does not
run and nothing is printed. The same layout in 8-byte words prints `"HELLO"`. -/
theorem width_four_scenario :
    ptrSizeForCpuElf ELFCLASS32 = .ok 4 ∧
    main (.elf (helloFile32 (helloPair32 ++ [0]))) = .error .outOfRange ∧
    main (.elf (helloFile32 helloPair32)) = .ok [] ∧
    main (.elf (helloFile (helloSectionB ++ [0]))) = .ok [hello] := by
  decide

/-- At pointer width 4 `findStringsInSection` returns no string for any input: it panics on
every section of more than eight bytes and skips every shorter one. -/
theorem findStringsInSection_four (bo : ByteOrder) (d : List Byte)
    (ds : List (Uintptr × List Byte)) :
    findStringsInSection 4 bo d ds
      = if 8 < d.length then .error .outOfRange else .ok [] := by
  by_cases h : 8 < d.length
  · rw [if_pos h, findStringsInSection_four_panics bo d ds h]
  · rw [if_neg h, findStringsInSection_four_short bo d ds (by omega)]

/-- C10. The section bound wraps. With base `0xFFFFFFFFFFFF0000` and `0x10000` bytes of
content the sum `rodataBaseAddr+uintptr(len(rodataData))` is `2 ^ 64`, that is 0 in
`uintptr`; the candidate `(base, 4)` passes the filter and lies inside the section as
natural numbers, and the scan does not resolve it. -/
theorem section_bound_wraps :
    (¬ ((4 : Nat) < MIN_LEN ∨ (4 : Nat) > MAX_LEN ∨
      (0xffffffffffff0000 : Nat) > 0xffffffffffff0000)) ∧
    addrTop.val ≤ 0xffffffffffff0000 ∧
    0xffffffffffff0000 + 4 ≤ addrTop.val + topSection.length ∧
    addrTop.val + topSection.length = 2 ^ 64 ∧
    uadd addrTop.val (uintptr topSection.length) = 0 ∧
    rangeDataSections 0xffffffffffff0000 4 [(addrTop, topSection)] [] = .ok [] ∧
    findStringsInSection 8 .LittleEndian (descriptor .LittleEndian 0xffffffffffff0000 4)
      [(addrTop, topSection)] = .ok [] := by
  have hlen : topSection.length = 0x10000 := List.length_replicate _ _
  refine ⟨by decide, by decide, ?_, ?_, ?_, ?_, ?_⟩
  · rw [hlen]; decide
  · rw [hlen]; decide
  · rw [hlen]; decide
  · rw [rangeDataSections_eq (by decide) (by decide), resolved, resolved]
    have hnh : ¬ hits 0xffffffffffff0000 4 (addrTop, topSection) :=
      not_hits_pair_of_wrap addrTop topSection (by decide) (by decide) (by rw [hlen]; decide)
    rw [if_neg (fun hh => hnh hh.1)]
    rfl
  · exact wrapped_section_never_resolves .LittleEndian 0xffffffffffff0000 4 addrTop topSection
      (by decide) (by decide) (by rw [hlen]; decide) (by rw [hlen]; decide)

/-- C15. Unsupported architecture is fatal. `ptrSizeForCpuElf` returns 4 for `ELFCLASS32` and
8 for `ELFCLASS64`; `ptrSizeForCpuMacho` returns 4 for `Cpu386` and `CpuArm` and 8 for
`CpuAmd64` and `CpuArm64`; for every other class or CPU each panics with "unsupported CPU".
So a width that is returned is 4 or 8, and `parseElf` and `parseMacho` return no strings for
a file of another class or CPU. -/
theorem unsupported_architecture_fatal :
    ptrSizeForCpuElf ELFCLASS32 = .ok 4 ∧ ptrSizeForCpuElf ELFCLASS64 = .ok 8 ∧
    ptrSizeForCpuMacho Cpu386 = .ok 4 ∧ ptrSizeForCpuMacho CpuArm = .ok 4 ∧
    ptrSizeForCpuMacho CpuAmd64 = .ok 8 ∧ ptrSizeForCpuMacho CpuArm64 = .ok 8 ∧
    (∀ cls : Nat, cls ≠ ELFCLASS32 → cls ≠ ELFCLASS64 →
      ptrSizeForCpuElf cls = .error .unsupportedCPU) ∧
    (∀ cpu : Nat, cpu ≠ Cpu386 → cpu ≠ CpuAmd64 → cpu ≠ CpuArm → cpu ≠ CpuArm64 →
      ptrSizeForCpuMacho cpu = .error .unsupportedCPU) ∧
    (∀ cls w : Nat, ptrSizeForCpuElf cls = .ok w → w = 4 ∨ w = 8) ∧
    (∀ cpu w : Nat, ptrSizeForCpuMacho cpu = .ok w → w = 4 ∨ w = 8) ∧
    (∀ (f : ElfFile) (out : List GoString), f.Class ≠ ELFCLASS32 → f.Class ≠ ELFCLASS64 →
      parseElf f ≠ .ok out ∧ main (.elf f) ≠ .ok out) ∧
    (∀ (f : MachoFile) (out : List GoString), f.Cpu ≠ Cpu386 → f.Cpu ≠ CpuAmd64 →
      f.Cpu ≠ CpuArm → f.Cpu ≠ CpuArm64 →
      parseMacho f ≠ .ok out ∧ main (.macho f) ≠ .ok out) := by
  have helf : ∀ cls : Nat, cls ≠ ELFCLASS32 → cls ≠ ELFCLASS64 →
      ptrSizeForCpuElf cls = .error .unsupportedCPU := by
    intro cls h1 h2
    unfold ptrSizeForCpuElf
    rw [if_neg h1, if_neg h2]
  have hmacho : ∀ cpu : Nat, cpu ≠ Cpu386 → cpu ≠ CpuAmd64 → cpu ≠ CpuArm → cpu ≠ CpuArm64 →
      ptrSizeForCpuMacho cpu = .error .unsupportedCPU := by
    intro cpu h1 h2 h3 h4
    unfold ptrSizeForCpuMacho
    rw [if_neg h1, if_neg h2, if_neg h3, if_neg h4]
  have hpe : ∀ (f : ElfFile) (out : List GoString), f.Class ≠ ELFCLASS32 →
      f.Class ≠ ELFCLASS64 → parseElf f ≠ .ok out := by
    intro f out h1 h2 hc
    unfold parseElf at hc
    rw [helf f.Class h1 h2] at hc
    cases hcol : collectElf f.Sections [] with
    | error e => rw [hcol] at hc; cases hc
    | ok ds => rw [hcol] at hc; cases hc
  have hpm : ∀ (f : MachoFile) (out : List GoString), f.Cpu ≠ Cpu386 → f.Cpu ≠ CpuAmd64 →
      f.Cpu ≠ CpuArm → f.Cpu ≠ CpuArm64 → parseMacho f ≠ .ok out := by
    intro f out h1 h2 h3 h4 hc
    unfold parseMacho at hc
    rw [hmacho f.Cpu h1 h2 h3 h4] at hc
    cases hcol : collectMacho f.Sections [] with
    | error e => rw [hcol] at hc; cases hc
    | ok ds => rw [hcol] at hc; cases hc
  refine ⟨rfl, rfl, rfl, rfl, rfl, rfl, helf, hmacho, ?_, ?_, ?_, ?_⟩
  · intro cls w h
    unfold ptrSizeForCpuElf at h
    split at h
    · left; exact (Except.ok.inj h).symm
    · split at h
      · right; exact (Except.ok.inj h).symm
      · cases h
  · intro cpu w h
    unfold ptrSizeForCpuMacho at h
    split at h
    · left; exact (Except.ok.inj h).symm
    · split at h
      · right; exact (Except.ok.inj h).symm
      · split at h
        · left; exact (Except.ok.inj h).symm
        · split at h
          · right; exact (Except.ok.inj h).symm
          · cases h
  · intro f out h1 h2
    refine ⟨hpe f out h1 h2, fun hc => ?_⟩
    obtain ⟨strs, hp, _⟩ := main_elf_ok.1 hc
    exact hpe f strs h1 h2 hp
  · intro f out h1 h2 h3 h4
    refine ⟨hpm f out h1 h2 h3 h4, fun hc => ?_⟩
    obtain ⟨strs, hp, _⟩ := main_macho_ok.1 hc
    exact hpm f strs h1 h2 h3 h4 hp

/-- C16. Sections without on-disk content take no part: for every ELF file `parseElf` gives
the same outcome as on the file with every `SHT_NOBITS` section removed; such a section is
neither put in the address index nor scanned. -/
theorem nobits_sections_excluded (f : ElfFile) :
    parseElf f
      = parseElf { f with
          Sections := f.Sections.filter (fun s => decide (s.SType ≠ SHT_NOBITS)) } ∧
    (∀ acc : List (Uintptr × List Byte),
      collectElf (f.Sections.filter (fun s => decide (s.SType ≠ SHT_NOBITS))) acc
        = collectElf f.Sections acc) ∧
    (∀ (ptrSize : Nat) (ds : List (Uintptr × List Byte)) (stringMap : List GoString),
      scanElf ptrSize f.Order ds
          (f.Sections.filter (fun s => decide (s.SType ≠ SHT_NOBITS))) stringMap
        = scanElf ptrSize f.Order ds f.Sections stringMap) := by
  refine ⟨?_, collectElf_filter f.Sections, fun p ds sm => scanElf_filter p f.Order ds _ sm⟩
  unfold parseElf
  simp only [collectElf_filter, scanElf_filter]

/-- C19. No wrap in `pointer + length`. For a candidate that passes the validity filter of
`findStringsInSection` (the test `length < MIN_LEN || length > MAX_LEN ||
ptr > 0xffffffffffff0000` is false) the sum `ptr + length` is below `2 ^ 64`, so the
`uintptr` sum of the range test is the exact sum, and the range test compares the exact
sum with the section bound. -/
theorem no_wrap_in_pointer_plus_length (ptr length : Nat)
    (h : ¬ (length < MIN_LEN ∨ length > MAX_LEN ∨ ptr > 0xffffffffffff0000)) :
    ptr + length < 2 ^ 64 ∧
    uadd (uintptr ptr) (uintptr length) = ptr + length ∧
    ∀ e : Uintptr × List Byte,
      (uintptr ptr ≥ e.1.val ∧
        uadd (uintptr ptr) (uintptr length) ≤ uadd e.1.val (uintptr e.2.length)) ↔
      (e.1.val ≤ ptr ∧ ptr + length ≤ uadd e.1.val (uintptr e.2.length)) := by
  unfold MIN_LEN MAX_LEN at h
  have hsum : uadd (uintptr ptr) (uintptr length) = ptr + length := by
    unfold uadd uintptr
    rw [Nat.mod_eq_of_lt (show ptr < 2 ^ 64 by omega),
      Nat.mod_eq_of_lt (show length < 2 ^ 64 by omega),
      Nat.mod_eq_of_lt (show ptr + length < 2 ^ 64 by omega)]
  refine ⟨by omega, hsum, fun e => ?_⟩
  rw [hsum, uintptr_of_lt (show ptr < 2 ^ 64 by omega)]

/-- The largest candidate that passes the filter, pointer `0xFFFFFFFFFFFF0000` and length
2048: the sum is `0xFFFFFFFFFFFF0800`, below `2 ^ 64`. -/
theorem no_wrap_in_pointer_plus_length_witness :
    uadd (uintptr 0xffffffffffff0000) (uintptr 2048) = 0xffffffffffff0800 ∧
    0xffffffffffff0000 + 2048 < 2 ^ 64 :=
  ⟨(no_wrap_in_pointer_plus_length 0xffffffffffff0000 2048 (by decide)).2.1,
   (no_wrap_in_pointer_plus_length 0xffffffffffff0000 2048 (by decide)).1⟩

/-- C11. Truncated input gives the empty result. For every pointer width `w` (4 and 8
among them), byte order and address index, `findStringsInSection` on a section of fewer
than `2 * w` bytes returns the empty result, without a bounds panic; and a file with no
section at all prints nothing, for each supported class and CPU. -/
theorem truncated_input_empty (w : Nat) (bo : ByteOrder) (d : List Byte)
    (ds : List (Uintptr × List Byte)) (h : d.length < 2 * w) :
    findStringsInSection w bo d ds = .ok [] ∧
    findStringsInSection w bo [] ds = .ok [] ∧
    main (.elf { Class := ELFCLASS32, Order := bo, Sections := [] }) = .ok [] ∧
    main (.elf { Class := ELFCLASS64, Order := bo, Sections := [] }) = .ok [] ∧
    main (.macho { Cpu := Cpu386, Order := bo, Sections := [] }) = .ok [] ∧
    main (.macho { Cpu := CpuAmd64, Order := bo, Sections := [] }) = .ok [] ∧
    main (.macho { Cpu := CpuArm, Order := bo, Sections := [] }) = .ok [] ∧
    main (.macho { Cpu := CpuArm64, Order := bo, Sections := [] }) = .ok [] :=
  ⟨findStringsInSection_short w bo d ds (by omega),
   findStringsInSection_short w bo [] ds (Nat.zero_le _),
   by cases bo <;> decide, by cases bo <;> decide, by cases bo <;> decide,
   by cases bo <;> decide, by cases bo <;> decide, by cases bo <;> decide⟩

/-- The claim C11 at the two widths: 15 bytes at width 8 and 7 bytes at width 4, with a
printable section in the index. -/
theorem truncated_input_empty_witness :
    findStringsInSection 8 .LittleEndian (List.replicate 15 0x41) [(addr1000, abcd)] = .ok [] ∧
    findStringsInSection 4 .BigEndian (List.replicate 7 0x41) [(addr1000, abcd)] = .ok [] :=
  ⟨(truncated_input_empty 8 .LittleEndian (List.replicate 15 0x41) [(addr1000, abcd)]
      (by decide)).1,
   (truncated_input_empty 4 .BigEndian (List.replicate 7 0x41) [(addr1000, abcd)]
      (by decide)).1⟩

/-- C17. Soundness of the scan at pointer width 8. `findStringsInSection` returns, and every
string `s` it returns has a justification: an offset `i`, a multiple of 8 with `i + 16`
inside the section, and an entry `(base, data)` of the address index such that, with `ptr`
the word at `i` and `length` the word at `i + 8` in the given byte order,
`4 ≤ length ≤ 2048`, `ptr ≤ 0xFFFFFFFFFFFF0000`, `base ≤ ptr`,
`ptr + length ≤ base + len(data)`, and `s` is the bytes `data[ptr-base : ptr-base+length]`,
`length` of them, all printable. -/
theorem scan_sound (bo : ByteOrder) (d : List Byte) (ds : List (Uintptr × List Byte)) :
    ∃ r, findStringsInSection 8 bo d ds = .ok r ∧
      ∀ s ∈ r, ∃ (i ptr length : Nat) (base : Uintptr) (data : List Byte),
        i % 8 = 0 ∧ i + 16 ≤ d.length ∧
        bo.Uint64 ((d.drop i).take 8) = .ok ptr ∧
        bo.Uint64 ((d.drop (i + 8)).take 8) = .ok length ∧
        4 ≤ length ∧ length ≤ 2048 ∧ ptr ≤ 0xffffffffffff0000 ∧
        (base, data) ∈ ds ∧
        base.val ≤ ptr ∧ ptr + length ≤ base.val + data.length ∧
        s = (data.drop (ptr - base.val)).take length ∧
        s.length = length ∧
        ∀ b ∈ s, 32 ≤ b.val ∧ b.val ≤ 126 := by
  refine ⟨_, findStringsInSection_eq bo d ds, fun s hs => ?_⟩
  obtain ⟨j, hj, ⟨h4, h2048, hp⟩, ⟨base, data⟩, he, hh, hpr, rfl⟩ := mem_scanned_visits.1 hs
  have hb := hits_bounds hp h2048 hh
  have hlen : data.length % 2 ^ 64 ≤ data.length := Nat.mod_le _ _
  have hle : base.val ≤ word bo d (8 * j) := hh.1
  simp only at hb
  refine ⟨8 * j, word bo d (8 * j), word bo d (8 * j + 8), base, data, by omega, by omega,
    ?_, ?_, h4, h2048, hp, he, hle, by omega, rfl, bytesAt_length hp h2048 hh,
    (isPrintable_iff _).1 hpr⟩
  · rw [Uint64_take bo _ 8 (le_refl 8)]
    exact (Uint64_drop bo d (by omega)).1
  · rw [Uint64_take bo _ 8 (le_refl 8)]
    exact (Uint64_drop bo d (by omega)).1

/-- C18. Bounds safety at pointer width 8. For every section (of any length), byte order and
address index `findStringsInSection` returns without a panic; at every offset the loop
visits both word slices lie inside the section and hold eight bytes; and for a candidate
that passed the filter, whenever the outer range test holds the inner test
`offset+length <= len(rodataData)` holds too and the slice `rodataData[offset : offset+length]`
is in bounds, so the empty `else` branch is never taken. -/
theorem bounds_safety :
    (∀ (bo : ByteOrder) (d : List Byte) (ds : List (Uintptr × List Byte)),
      ∃ r, findStringsInSection 8 bo d ds = .ok r) ∧
    (∀ (bo : ByteOrder) (d : List Byte) (i : Nat), i + 2 * 8 < d.length →
      ∃ ptrBytes lengthBytes ptr length,
        slice d i (i + 8) = .ok ptrBytes ∧ ptrBytes.length = 8 ∧
        slice d (i + 8) (i + 2 * 8) = .ok lengthBytes ∧ lengthBytes.length = 8 ∧
        bo.Uint64 ptrBytes = .ok ptr ∧ bo.Uint64 lengthBytes = .ok length) ∧
    (∀ (ptr length : Nat) (rodataBaseAddr : Uintptr) (rodataData : List Byte),
      ¬ (length < MIN_LEN ∨ length > MAX_LEN ∨ ptr > 0xffffffffffff0000) →
      (uintptr ptr ≥ rodataBaseAddr.val ∧
        uadd (uintptr ptr) (uintptr length)
          ≤ uadd rodataBaseAddr.val (uintptr rodataData.length)) →
      uadd (usub (uintptr ptr) rodataBaseAddr.val) (uintptr length)
          ≤ uintptr rodataData.length ∧
      usub (uintptr ptr) rodataBaseAddr.val + length ≤ rodataData.length ∧
      ∃ strData,
        slice rodataData (usub (uintptr ptr) rodataBaseAddr.val)
          (uadd (usub (uintptr ptr) rodataBaseAddr.val) (uintptr length)) = .ok strData ∧
        strData.length = length) := by
  refine ⟨fun bo d ds => ⟨_, findStringsInSection_eq bo d ds⟩, fun bo d i hi => ?_,
    fun ptr length base data hf ho => ?_⟩
  · have hs1 : slice d i (i + 8) = .ok ((d.drop i).take 8) := by
      rw [slice_ok d (by omega) (by omega), show i + 8 - i = 8 by omega]
    have hs2 : slice d (i + 8) (i + 2 * 8) = .ok ((d.drop (i + 8)).take 8) := by
      rw [slice_ok d (by omega) (by omega), show i + 2 * 8 - (i + 8) = 8 by omega]
    refine ⟨_, _, word bo d i, word bo d (i + 8), hs1, ?_, hs2, ?_, ?_, ?_⟩
    · rw [List.length_take, List.length_drop]; omega
    · rw [List.length_take, List.length_drop]; omega
    · rw [Uint64_take bo _ 8 (le_refl 8)]
      exact (Uint64_drop bo d (by omega)).1
    · rw [Uint64_take bo _ 8 (le_refl 8)]
      exact (Uint64_drop bo d (by omega)).1
  · unfold MIN_LEN MAX_LEN at hf
    have hl : length ≤ 2048 := by omega
    have hp : ptr ≤ 0xffffffffffff0000 := by omega
    have hh : hits ptr length (base, data) := (range_test_iff (base, data) hl hp).1 ho
    have hb := hits_bounds hp hl hh
    have hle : base.val ≤ ptr := hh.1
    have hbase := base.isLt
    have hlen : data.length % 2 ^ 64 ≤ data.length := Nat.mod_le _ _
    simp only at hb
    have hoff : usub (uintptr ptr) base.val = ptr - base.val := by
      unfold usub uintptr
      rw [Nat.mod_eq_of_lt (show ptr < 2 ^ 64 by omega)]
      omega
    have hend : uadd (ptr - base.val) (uintptr length) = ptr - base.val + length := by
      unfold uadd uintptr
      rw [Nat.mod_eq_of_lt (show length < 2 ^ 64 by omega)]
      omega
    rw [hoff, hend]
    refine ⟨by unfold uintptr; exact hb.2, by omega, _, slice_ok data (by omega) (by omega), ?_⟩
    rw [List.length_take, List.length_drop]
    omega

/-- C12. Dedup. Whenever the program prints, for an ELF file and for a Mach-O file, the
printed sequence has no string twice, and it holds exactly the strings that
`findStringsInSection` returned for the scanned sections (against the index built from the
file, at the width of the file). Inserting a string that is in the set leaves the set as it
is, inserting a string twice is inserting it once, and a string inserted `n + 1` times is
printed once. -/
theorem collector_dedup :
    (∀ (f : ElfFile) (out : List GoString), main (.elf f) = .ok out →
      out.Nodup ∧
      ∃ ds p, collectElf f.Sections [] = .ok ds ∧ ptrSizeForCpuElf f.Class = .ok p ∧
        ∀ s, s ∈ out ↔ ∃ sec ∈ f.Sections, sec.SType ≠ SHT_NOBITS ∧
          ∃ data strs, sec.Data = .ok data ∧
            findStringsInSection p f.Order data ds = .ok strs ∧ s ∈ strs) ∧
    (∀ (f : MachoFile) (out : List GoString), main (.macho f) = .ok out →
      out.Nodup ∧
      ∃ ds p, collectMacho f.Sections [] = .ok ds ∧ ptrSizeForCpuMacho f.Cpu = .ok p ∧
        ∀ s, s ∈ out ↔ ∃ sec ∈ f.Sections,
          ∃ data strs, sec.Data = .ok data ∧
            findStringsInSection p f.Order data ds = .ok strs ∧ s ∈ strs) ∧
    (∀ (m : List GoString) (s : GoString), s ∈ m → setAdd m s = m) ∧
    (∀ (m : List GoString) (s : GoString), setAdd (setAdd m s) s = setAdd m s) ∧
    (∀ (s : GoString) (n : Nat), sortStrings (addAll [] (List.replicate (n + 1) s)) = [s]) := by
  refine ⟨fun f out h => ?_, fun f out h => ?_, fun m s h => setAdd_of_mem h, setAdd_idem,
    fun s n => ?_⟩
  · obtain ⟨strs, hp, rfl⟩ := main_elf_ok.1 h
    obtain ⟨hn, ds, p, hc, hw, hmem⟩ := parseElf_spec hp
    refine ⟨(sortStrings_perm strs).nodup_iff.2 hn, ds, p, hc, hw, fun s => ?_⟩
    rw [(sortStrings_perm strs).mem_iff]
    exact hmem s
  · obtain ⟨strs, hp, rfl⟩ := main_macho_ok.1 h
    obtain ⟨hn, ds, p, hc, hw, hmem⟩ := parseMacho_spec hp
    refine ⟨(sortStrings_perm strs).nodup_iff.2 hn, ds, p, hc, hw, fun s => ?_⟩
    rw [(sortStrings_perm strs).mem_iff]
    exact hmem s
  · rw [addAll_replicate]
    rfl

/-- The claim C12 on a file whose section B holds the candidate `(0x2000, 5)` twice:
`findStringsInSection` returns `"HELLO"` twice and the program prints it once. -/
theorem collector_dedup_witness :
    findStringsInSection 8 .LittleEndian helloTwice
      [(addr2000, helloSectionA), (addr3000, helloTwice)] = .ok [hello, hello] ∧
    main (.elf (helloFile helloTwice)) = .ok [hello] ∧
    [hello].Nodup :=
  ⟨by decide, by decide,
   (collector_dedup.1 (helloFile helloTwice) [hello] (by decide)).1⟩

/-- C13. The sort invariant. Whatever the input, the sequence of strings the program prints
is in ascending byte-wise lexicographic order: every string may stand before every later
one, and, the set holding no string twice, every string is less than every later one, its
successor among them. The comparison is the lexicographic order of the bytes. -/
theorem sort_invariant (b : Binary) (out : List GoString) (h : main b = .ok out) :
    out.Sorted stringLE ∧
    out.Pairwise (fun x y => stringLess x y = true) ∧
    out.Chain' (fun x y => stringLess x y = true) ∧
    out.Chain' (fun x y => List.Lex (fun u v : Byte => u < v) x y) := by
  obtain ⟨strs, hn, rfl⟩ := main_ok_nodup h
  have hp := sortStrings_strict strs hn
  refine ⟨sortStrings_sorted strs, hp, List.Pairwise.chain' hp, ?_⟩
  exact (List.Pairwise.chain' hp).imp (fun x y hxy => (stringLess_iff_lex x y).1 hxy)

/-- The claim C13 on a file in which `"WXYZ"` is found before `"ABCD"`: the program prints
`"ABCD"` first. -/
theorem sort_invariant_witness :
    parseElf twoStringsFile = .ok [wxyz, abcd] ∧
    main (.elf twoStringsFile) = .ok [abcd, wxyz] ∧
    [abcd, wxyz].Pairwise (fun x y => stringLess x y = true) :=
  ⟨by decide, by decide,
   (sort_invariant (.elf twoStringsFile) [abcd, wxyz] (by decide)).2.1⟩

/-- C14. Determinism. The outcome of the program (the lines printed, or the failure) is a
function of the input file alone: for any two choices of the orders in which the
`range dataSections` statements visit the address index (one order for every offset of
every section) and of the order in which the keys of `stringMap` are collected, the two
runs give the same outcome, which is that of `main`. -/
theorem output_deterministic (b : Binary) (order1 order2 : Nat → Nat → RangeOrder)
    (keys1 keys2 : List GoString → List GoString)
    (ho1 : ∀ k i m, (order1 k i m).Perm m) (ho2 : ∀ k i m, (order2 k i m).Perm m)
    (hk1 : ∀ m, (keys1 m).Perm m) (hk2 : ∀ m, (keys2 m).Perm m) :
    mainIn order1 keys1 b = mainIn order2 keys2 b ∧ mainIn order1 keys1 b = main b :=
  ⟨(mainIn_eq b order1 keys1 ho1 hk1).trans (mainIn_eq b order2 keys2 ho2 hk2).symm,
   mainIn_eq b order1 keys1 ho1 hk1⟩

/-- The claim C14 with every order reversed. Against two overlapping sections the candidate
`(0x1000, 4)` yields `"ABCD"` then `"WXYZ"` in one order and `"WXYZ"` then `"ABCD"` in the
other; the keys of the string set are listed in two orders; the lines printed are the
same. -/
theorem output_deterministic_witness :
    findStringsInSection 8 .LittleEndian (descriptor .LittleEndian 0x1000 4)
      [(addr1000, abcd), (⟨0xffc, by decide⟩, wxyz ++ wxyz)] = .ok [abcd, wxyz] ∧
    findStringsInSectionIn 8 .LittleEndian (descriptor .LittleEndian 0x1000 4)
      [(addr1000, abcd), (⟨0xffc, by decide⟩, wxyz ++ wxyz)] (fun _ m => m.reverse)
        = .ok [wxyz, abcd] ∧
    parseElfIn twoStringsFile (fun _ _ m => m) (fun m => m) = .ok [wxyz, abcd] ∧
    parseElfIn twoStringsFile (fun _ _ m => m.reverse) List.reverse = .ok [abcd, wxyz] ∧
    mainIn (fun _ _ m => m) (fun m => m) (.elf twoStringsFile)
      = mainIn (fun _ _ m => m.reverse) List.reverse (.elf twoStringsFile) ∧
    mainIn (fun _ _ m => m) (fun m => m) (.elf twoStringsFile) = .ok [abcd, wxyz] :=
  ⟨by decide, by decide, by decide, by decide,
   (output_deterministic (.elf twoStringsFile) (fun _ _ m => m) (fun _ _ m => m.reverse)
      (fun m => m) List.reverse (fun _ _ m => List.Perm.refl m)
      (fun _ _ m => List.reverse_perm m) (fun m => List.Perm.refl m)
      (fun m => List.reverse_perm m)).1,
   by decide⟩

end GoStrings
